import Mathlib

/-!
# adminium/jsonrpc, util.go

A shallow embedding of the components of `util.go`:

* `processFuncOut`, the return-signature classifier;
* `param`, the deferred parameter value with `UnmarshalJSON` and `MarshalJSON`, on byte
  sequences and, for the copy `UnmarshalJSON` makes, on slices in a heap;
* `backoff.next`, the retry delay;
* `responseWriter` and the four header setters built on it.

Go panics are the `Except.error` branch of a result, Go's `(value, error)` pairs are
pairs whose second component is an `Option`, and the primitives the file consumes from
the standard library (`reflect`, `encoding/json`, `math`, `math/rand`, `net/http`) are
parameters or small models documented where they are introduced.
-/

namespace Jsonrpc

/-! ## Return-signature classifier -/

/-- A `reflect.Type` of kind `Func`, as far as `processFuncOut` reads it: its output types in
declaration order (`NumOut`, `Out`) and its printed form (`String`, which `%s` formats).
`τ` is the type of `reflect.Type` values; Go compares them with `==`. -/
structure FuncType (τ : Type) where
  out : List τ
  str : String

/-- The method `funcType.NumOut()`. -/
def FuncType.NumOut {τ : Type} (funcType : FuncType τ) : Nat :=
  funcType.out.length

/-- The method `funcType.Out(i)`; Go panics when `i` is out of range, which is `none` here. -/
def FuncType.Out {τ : Type} (funcType : FuncType τ) (i : Nat) : Option τ :=
  funcType.out[i]?

/-- The function `processFuncOut` of util.go. The package variable `errorType` is declared
outside util.go and is a parameter. The result is `(valOut, errOut, n)`; a panic is
`Except.error` carrying the panic message. -/
def processFuncOut {τ : Type} [DecidableEq τ] (errorType : τ) (funcType : FuncType τ) :
    Except String (Int × Int × Int) :=
  let errOut : Int := -1
  let valOut : Int := -1
  let n := funcType.NumOut
  match n with
  | 0 => .ok (valOut, errOut, n)
  | 1 =>
    if funcType.Out 0 = some errorType then .ok (valOut, 0, n)
    else .ok (0, errOut, n)
  | 2 =>
    if funcType.Out 1 ≠ some errorType then
      .error "expected error as second return value"
    else .ok (0, 1, n)
  | _ => .error ("too many return values: " ++ funcType.str)

/-! ## Deferred parameter value -/

/-- One byte of a Go `[]byte`. -/
abbrev Byte := Fin 256

/-- The builtin `make([]byte, n)`: `n` zero bytes. -/
def make (n : Nat) : List Byte :=
  List.replicate n 0

/-- The builtin `copy(dst, src)`: the first `min (len dst) (len src)` bytes of `dst` are
overwritten with those of `src`; the result is the new contents of `dst`. -/
def copy (dst src : List Byte) : List Byte :=
  src.take dst.length ++ dst.drop src.length

/-- A `reflect.Value` holding dynamic values of type `α`: the zero Value, whose kind is
`Invalid`, or a valid Value whose `Interface()` is the given interface value (`none` is
the nil interface, which a valid Value of kind `Interface` can hold). -/
inductive Value (α : Type) where
  | zero : Value α
  | valid (i : Option α) : Value α
deriving DecidableEq

/-- The function `reflect.ValueOf`: "ValueOf(nil) returns the zero Value", and a non-nil
interface value gives a valid Value holding it. -/
def Value.ValueOf {α : Type} : Option α → Value α
  | none => Value.zero
  | some a => Value.valid (some a)

/-- The struct `param` of util.go. -/
structure param (α : Type) where
  data : List Byte
  v : Value α

/-- The method `(*param).UnmarshalJSON`: the updated param and the returned error. -/
def param.UnmarshalJSON {α : Type} (p : param α) (raw : List Byte) :
    param α × Option String :=
  let data := make raw.length
  let data := copy data raw
  ({ p with data := data }, none)

/-- The method `(*param).MarshalJSON`. `marshal` is `json.Marshal`, returning Go's pair of
bytes and error. The first branch is `p.v.Kind() == reflect.Invalid`; in the second
`p.v.Interface()` is the interface value the valid Value holds. A Value read from an
unexported struct field, on which `Interface` panics, is outside the model. -/
def param.MarshalJSON {α ε : Type} (marshal : Option α → List Byte × Option ε)
    (p : param α) : List Byte × Option ε :=
  match p.v with
  | Value.zero => (p.data, none)
  | Value.valid i => marshal i

/-- A fragment of Go's dynamic values: booleans, and a channel as an example of a type
`encoding/json` does not support. -/
inductive GoVal where
  | bool (b : Bool) : GoVal
  | chanInt : GoVal
deriving DecidableEq

/-- The function `json.Marshal` of the standard library on the fragment `GoVal`: the nil
interface encodes as `null`, a boolean as `true` or `false`, and a channel fails with
`UnsupportedTypeError` and no bytes. -/
def jsonMarshal : Option GoVal → List Byte × Option String
  | none => ([110, 117, 108, 108], none)
  | some (GoVal.bool true) => ([116, 114, 117, 101], none)
  | some (GoVal.bool false) => ([102, 97, 108, 115, 101], none)
  | some GoVal.chanInt => ([], some "json: unsupported type: chan int")

/-! ## Backoff

`backoff.next` computes in `float64` and converts the result to `time.Duration`, an
`int64`. The embedding follows Go on amd64: every `float64` operation rounds its exact
result to the nearest binary64 value, ties to even (IEEE 754; the operations are not fused),
and a conversion to `int64` of a value that is out of range or not finite gives `-2^63`,
the result of the `CVTTSD2SQ` instruction (the Go specification leaves it to the
implementation). `math.Pow` is a parameter of `next`; `powCR` stands for it where a
concrete value is computed. -/

/-- Rounding of a rational to the nearest integer, ties to the even one. -/
def roundHalfEven (m : ℚ) : ℤ :=
  let f := ⌊m⌋
  if m - f < 1 / 2 then f
  else if 1 / 2 < m - f then f + 1
  else if f % 2 = 0 then f else f + 1

/-- The exponent of the spacing of binary64 values around `q`: 52 below the binary exponent
of `q`, and `-1074`, the spacing of the subnormal numbers, for `|q| < 2^-1022`. -/
def ulpExp (q : ℚ) : ℤ :=
  max (Int.log 2 |q|) (-1022) - 52

/-- IEEE 754 binary64 `roundTiesToEven` of an exact result, before the overflow test: the
nearest multiple of the spacing around `q`, which leaves 53 significant bits. -/
def rne (q : ℚ) : ℚ :=
  roundHalfEven (q / 2 ^ ulpExp q) * 2 ^ ulpExp q

/-- A `float64`: a finite value, given by the rational it denotes, or a value that is not
finite (an infinity or a NaN). -/
inductive Float64 where
  | finite (q : ℚ) : Float64
  | notFinite : Float64
deriving DecidableEq

/-- The `float64` an exact result rounds to: it overflows to an infinity when the rounded
magnitude reaches `2^1024`. Also the conversion `float64(n)` of an integer. -/
def float64 (q : ℚ) : Float64 :=
  if |rne q| < 2 ^ 1024 then Float64.finite (rne q) else Float64.notFinite

/-- The `float64` product `x * y`; an operand that is not finite gives a result that is not
finite. -/
def Float64.mul : Float64 → Float64 → Float64
  | Float64.finite a, Float64.finite b => float64 (a * b)
  | _, _ => Float64.notFinite

/-- The `float64` sum `x + y`; an operand that is not finite gives a result that is not
finite. -/
def Float64.add : Float64 → Float64 → Float64
  | Float64.finite a, Float64.finite b => float64 (a + b)
  | _, _ => Float64.notFinite

/-- The conversion `time.Duration(x)` of a `float64` to `int64` on amd64: truncation toward
zero, and `-2^63` when the truncated value is out of range or `x` is not finite. -/
def Float64.toInt64 : Float64 → ℤ
  | Float64.notFinite => -2 ^ 63
  | Float64.finite x =>
    let t : ℤ := if 0 ≤ x then ⌊x⌋ else ⌈x⌉
    if -2 ^ 63 ≤ t ∧ t < 2 ^ 63 then t else -2 ^ 63

/-- The `float64` is at least `c`, or is not finite. -/
def Float64.atLeast : Float64 → ℚ → Prop
  | Float64.finite a, c => c ≤ a
  | Float64.notFinite, _ => True

/-- A stand-in for `math.Pow(x, y)` at integral `y`: the rounded exact power. It is the
value `math.Pow` returns whenever the exact power is a `float64`, as for `1.5^n` with
`n ≤ 33`, which includes the documented cases `Pow(x, 0) = 1` and `Pow(x, 1) = x`. -/
def powCR : Float64 → Float64 → Float64
  | Float64.finite x, Float64.finite y => float64 (x ^ ⌊y⌋)
  | _, _ => Float64.notFinite

/-- The struct `backoff` of util.go; a `time.Duration` is an `int64` count of
nanoseconds. -/
structure backoff where
  minDelay : ℤ
  maxDelay : ℤ

/-- The product `minf * math.Pow(1.5, float64(attempt))` of `backoff.next`, the delay
before jitter. -/
def backoff.base (pow : Float64 → Float64 → Float64) (b : backoff) (attempt : ℤ) :
    Float64 :=
  (float64 b.minDelay).mul (pow (Float64.finite (3 / 2)) (float64 attempt))

/-- The method `(*backoff).next` of util.go. `pow` is `math.Pow` and `rand` is the value
`rand.Float64()` returns, a `float64` in `[0, 1)`. -/
def backoff.next (pow : Float64 → Float64 → Float64) (b : backoff) (rand : ℚ)
    (attempt : ℤ) : ℤ :=
  if attempt < 0 then b.minDelay
  else
    let minf := float64 b.minDelay
    let durf := minf.mul (pow (Float64.finite (3 / 2)) (float64 attempt))
    let durf := durf.add ((Float64.finite rand).mul minf)
    let delay := durf.toInt64
    if delay > b.maxDelay then b.maxDelay else delay

/-! ## Slices in memory

`UnmarshalJSON` keeps a copy of its argument so that the caller may reuse the buffer. To
state this, byte slices are also modelled as references into a heap of backing arrays;
`Heap.param.load` reads a param of the heap back into a `param`. -/

/-- The backing arrays allocated so far; the address of an array is its index. -/
structure Heap where
  arrays : List (List Byte)

/-- A `[]byte` value: the address of its backing array, its offset in it and its length
(the capacity plays no role in util.go). -/
structure Slice where
  addr : Nat
  off : Nat
  len : Nat

/-- The slice lies within an allocated array. -/
def Heap.valid (h : Heap) (s : Slice) : Prop :=
  s.addr < h.arrays.length ∧ s.off + s.len ≤ (h.arrays.getD s.addr []).length

/-- The contents of a slice. -/
def Heap.read (h : Heap) (s : Slice) : List Byte :=
  ((h.arrays.getD s.addr []).drop s.off).take s.len

/-- The assignment `s[i] = x`, for `i < len(s)`: elsewhere Go panics and the heap is left
as it is. -/
def Heap.store (h : Heap) (s : Slice) (i : Nat) (x : Byte) : Heap :=
  if i < s.len then
    ⟨h.arrays.set s.addr ((h.arrays.getD s.addr []).set (s.off + i) x)⟩
  else h

/-- The builtin `make([]byte, n)` in the heap: a new array of `n` zero bytes and the slice
of all of it. -/
def Heap.make (h : Heap) (n : Nat) : Heap × Slice :=
  (⟨h.arrays ++ [Jsonrpc.make n]⟩, ⟨h.arrays.length, 0, n⟩)

/-- The builtin `copy(dst, src)` in the heap: the contents of `dst` become
`copy (read dst) (read src)`, the rest of its array is untouched. -/
def Heap.copy (h : Heap) (dst src : Slice) : Heap :=
  let arr := h.arrays.getD dst.addr []
  ⟨h.arrays.set dst.addr
    (arr.take dst.off ++ Jsonrpc.copy (h.read dst) (h.read src)
      ++ arr.drop (dst.off + dst.len))⟩

/-- The struct `param` of util.go in the heap: `data` is a slice. -/
structure Heap.param (α : Type) where
  data : Slice
  v : Value α

/-- The param with the bytes its `data` slice holds in the heap. -/
def Heap.param.load {α : Type} (h : Heap) (p : Heap.param α) : Jsonrpc.param α :=
  ⟨h.read p.data, p.v⟩

/-- The method `(*param).UnmarshalJSON` in the heap: the heap after the call, the updated
param and the returned error. -/
def Heap.param.UnmarshalJSON {α : Type} (h : Heap) (p : Heap.param α) (raw : Slice) :
    Heap × Heap.param α × Option String :=
  let (h, data) := h.make raw.len
  let h := h.copy data raw
  (h, { p with data := data }, none)

/-- The assignments `s[i] = x` of a list, in order. -/
def Heap.stores (h : Heap) (ws : List (Slice × Nat × Byte)) : Heap :=
  ws.foldl (fun h w => h.store w.1 w.2.1 w.2.2) h

instance (h : Heap) (s : Slice) : Decidable (h.valid s) := by
  unfold Heap.valid
  infer_instance

/-! ## Response headers

The setters of util.go act on the sink that the caller's function `f` hands to their
callback. A sink is passed by value here: the callback returns the sink as it has left it,
and `f` threads a state of its own. The names `X_RPC_ID`, `X_RPC_Handler` and `X_RPC_ERROR`
are declared outside util.go and are parameters of their setters. -/

/-- The function `validHeaderFieldByte` of `net/textproto`: the token characters of
RFC 7230, which are the ASCII letters and digits and ``!#$%&'*+-.^_`|~``. -/
def validHeaderFieldByte (c : Char) : Bool :=
  c.isAlphanum || [33, 35, 36, 37, 38, 39, 42, 43, 45, 46, 94, 95, 96, 124, 126].contains c.toNat

/-- The case mapping of `canonicalMIMEHeaderKey`: upper case for the first letter and for a
letter after a hyphen, lower case for every other letter. -/
def canonicalCase : Bool → List Char → List Char
  | _, [] => []
  | upper, c :: cs =>
    let c := if upper then c.toUpper else c.toLower
    c :: canonicalCase (c == '-') cs

/-- The function `textproto.CanonicalMIMEHeaderKey`: a key made of token characters only is
put in canonical case, any other key is returned unchanged. -/
def CanonicalMIMEHeaderKey (s : String) : String :=
  if s.data.all validHeaderFieldByte then String.mk (canonicalCase true s.data) else s

/-- An `http.Header`, a `map[string][]string`: the values stored under each key, `none` for
a key that is absent. -/
abbrev Header := String → Option (List String)

/-- The method `Header.Set`: the entry of the canonical key becomes the single value. -/
def Header.Set (h : Header) (key value : String) : Header :=
  fun k => if k = CanonicalMIMEHeaderKey key then some [value] else h k

/-- The method `Header.Get`: the first value under the canonical key, or the empty string. -/
def Header.Get (h : Header) (key : String) : String :=
  match h (CanonicalMIMEHeaderKey key) with
  | some (v :: _) => v
  | _ => ""

/-- The state of an `http.ResponseWriter` that the setters can reach: the header map that
`Header()` returns and the status code written by `WriteHeader`, if any. -/
structure ResponseWriter where
  header : Header
  status : Option Nat

/-- An `io.Writer` by its dynamic type: one that implements `http.ResponseWriter`, or any
other value (nil included) with the bytes written to it. -/
inductive Writer where
  | http (w : ResponseWriter) : Writer
  | other (written : List Byte) : Writer

/-- The function `responseWriter` of util.go: `f` receives a callback that applies `c` to a
sink whose type assertion `w.(http.ResponseWriter)` succeeds and leaves any other sink
alone. -/
def responseWriter {σ : Type} (f : (Writer → Writer) → σ → σ)
    (c : ResponseWriter → ResponseWriter) : σ → σ :=
  f (fun w =>
    match w with
    | Writer.http hw => Writer.http (c hw)
    | Writer.other written => Writer.other written)

/-- The function `setRPCHeaderID` of util.go. -/
def setRPCHeaderID {σ : Type} (X_RPC_ID : String) (f : (Writer → Writer) → σ → σ)
    (id : String) : σ → σ :=
  responseWriter f (fun w => { w with header := w.header.Set X_RPC_ID id })

/-- The function `setRPCHeaderHandler` of util.go. -/
def setRPCHeaderHandler {σ : Type} (X_RPC_Handler : String)
    (f : (Writer → Writer) → σ → σ) (method : String) : σ → σ :=
  responseWriter f (fun w => { w with header := w.header.Set X_RPC_Handler method })

/-- The function `setRPCHeaderError` of util.go. -/
def setRPCHeaderError {σ : Type} (X_RPC_ERROR : String) (f : (Writer → Writer) → σ → σ)
    (err : String) : σ → σ :=
  responseWriter f (fun w => { w with header := w.header.Set X_RPC_ERROR err })

/-- The function `setRPCHeaderContentType` of util.go. -/
def setRPCHeaderContentType {σ : Type} (f : (Writer → Writer) → σ → σ) : σ → σ :=
  responseWriter f (fun w =>
    { w with header := w.header.Set "Content-Type" "application/json; charset=utf-8" })

/-- The caller's function that hands one sink to the callback, the sink being its whole
state: `func(cb func(io.Writer)) { cb(w) }`. -/
def handSink (cb : Writer → Writer) (w : Writer) : Writer :=
  cb w

/-- The effect the header helpers are to have on a sink through their callback `cb`: a sink
that is not an `http.ResponseWriter` is left as it is, and on one that is, the header
`key` holds exactly `value` afterwards while every other header and the status code are
unchanged. -/
def SetsHeader (key value : String) (cb : Writer → Writer) : Prop :=
  (∀ written, cb (Writer.other written) = Writer.other written)
  ∧ ∀ w : ResponseWriter, ∃ w' : ResponseWriter,
      cb (Writer.http w) = Writer.http w'
      ∧ w'.header (CanonicalMIMEHeaderKey key) = some [value]
      ∧ w'.header.Get key = value
      ∧ (∀ k, k ≠ CanonicalMIMEHeaderKey key → w'.header k = w.header k)
      ∧ w'.status = w.status

/-! ## Theorems: classifier -/

/-- C1: `processFuncOut` returns `(-1, -1, 0)` for every function type with no outputs,
`(-1, 0, 1)` when the single output is the error type, `(0, -1, 1)` when the single output
is any other type, and `(0, 1, 2)` for every two-output type `(T, error)`, whatever `T`
is (the error type included). -/
theorem processFuncOut_classifies {τ : Type} [DecidableEq τ] (errorType : τ) :
    (∀ funcType : FuncType τ, funcType.NumOut = 0 →
        processFuncOut errorType funcType = .ok (-1, -1, 0))
    ∧ (∀ funcType : FuncType τ, funcType.NumOut = 1 → funcType.Out 0 = some errorType →
        processFuncOut errorType funcType = .ok (-1, 0, 1))
    ∧ (∀ funcType : FuncType τ, funcType.NumOut = 1 → funcType.Out 0 ≠ some errorType →
        processFuncOut errorType funcType = .ok (0, -1, 1))
    ∧ (∀ funcType : FuncType τ, funcType.NumOut = 2 → funcType.Out 1 = some errorType →
        processFuncOut errorType funcType = .ok (0, 1, 2)) := by
  refine ⟨?_, ?_, ?_, ?_⟩
  · intro funcType h0
    simp [processFuncOut, h0]
  · intro funcType h1 he
    simp [processFuncOut, h1, he]
  · intro funcType h1 he
    simp [processFuncOut, h1, he]
  · intro funcType h2 he
    simp [processFuncOut, h2, he]

/-- C1 at concrete signatures over type names: `func()`, `func() error`, `func() int`,
`func() (int, error)` and `func() (error, error)`. -/
theorem processFuncOut_classifies_witness :
    processFuncOut "error" ⟨[], "func()"⟩ = .ok (-1, -1, 0)
    ∧ processFuncOut "error" ⟨["error"], "func() error"⟩ = .ok (-1, 0, 1)
    ∧ processFuncOut "error" ⟨["int"], "func() int"⟩ = .ok (0, -1, 1)
    ∧ processFuncOut "error" ⟨["int", "error"], "func() (int, error)"⟩ = .ok (0, 1, 2)
    ∧ processFuncOut "error" ⟨["error", "error"], "func() (error, error)"⟩
        = .ok (0, 1, 2) := by
  have h := processFuncOut_classifies "error"
  exact ⟨h.1 _ rfl, h.2.1 _ rfl rfl, h.2.2.1 _ rfl (by decide), h.2.2.2 _ rfl rfl,
    h.2.2.2 _ rfl rfl⟩

/-- C2: `processFuncOut` panics exactly when the function type has three or more outputs,
or has two outputs of which the second is not the error type, and returns normally for
every other signature. With three or more outputs the message is
`too many return values: ` followed by the printed type, so it begins with
`too many return values`; with two outputs it is `expected error as second return value`. -/
theorem processFuncOut_panics_iff {τ : Type} [DecidableEq τ] (errorType : τ)
    (funcType : FuncType τ) :
    ((∃ msg, processFuncOut errorType funcType = .error msg) ↔
        (3 ≤ funcType.NumOut ∨ (funcType.NumOut = 2 ∧ funcType.Out 1 ≠ some errorType)))
    ∧ ((∃ r, processFuncOut errorType funcType = .ok r) ↔
        ¬ (3 ≤ funcType.NumOut ∨ (funcType.NumOut = 2 ∧ funcType.Out 1 ≠ some errorType)))
    ∧ (3 ≤ funcType.NumOut →
        processFuncOut errorType funcType
            = .error ("too many return values: " ++ funcType.str)
          ∧ "too many return values".data <+:
              ("too many return values: " ++ funcType.str).data)
    ∧ (funcType.NumOut = 2 → funcType.Out 1 ≠ some errorType →
        processFuncOut errorType funcType
          = .error "expected error as second return value") := by
  obtain ⟨out, str⟩ := funcType
  match out with
  | [] => simp [processFuncOut, FuncType.NumOut, FuncType.Out]
  | [t0] =>
    by_cases h : t0 = errorType <;>
      simp [processFuncOut, FuncType.NumOut, FuncType.Out, h]
  | [t0, t1] =>
    by_cases h : t1 = errorType <;>
      simp [processFuncOut, FuncType.NumOut, FuncType.Out, h]
  | t0 :: t1 :: t2 :: rest =>
    simp [processFuncOut, FuncType.NumOut, FuncType.Out]

/-- C2 at concrete signatures: three outputs and `(int, string)` panic with the two
messages, `(int, error)` returns. -/
theorem processFuncOut_panics_iff_witness :
    processFuncOut "error" ⟨["int", "int", "error"], "func() (int, int, error)"⟩
        = .error "too many return values: func() (int, int, error)"
    ∧ processFuncOut "error" ⟨["int", "string"], "func() (int, string)"⟩
        = .error "expected error as second return value"
    ∧ ∃ r, processFuncOut "error" ⟨["int", "error"], "func() (int, error)"⟩ = .ok r := by
  refine ⟨?_, ?_, ?_⟩
  · exact ((processFuncOut_panics_iff "error"
      ⟨["int", "int", "error"], "func() (int, int, error)"⟩).2.2.1 (by decide)).1
  · exact (processFuncOut_panics_iff "error"
      ⟨["int", "string"], "func() (int, string)"⟩).2.2.2 rfl (by decide)
  · exact (processFuncOut_panics_iff "error"
      ⟨["int", "error"], "func() (int, error)"⟩).2.1.2 (by decide)

/-! ## Theorems: deferred parameter value -/

/-- Copying `raw` into a fresh slice of the same length gives `raw`. -/
theorem copy_make (raw : List Byte) : copy (make raw.length) raw = raw := by
  simp [copy, make]

/-- C3: for every byte sequence `b` (empty or not valid JSON included), `UnmarshalJSON(b)`
on a param with no typed value returns no error, and `MarshalJSON` on the result returns
exactly `b` with no error. -/
theorem param_unmarshal_marshal_roundtrip {α ε : Type}
    (marshal : Option α → List Byte × Option ε) (data0 b : List Byte) :
    (param.UnmarshalJSON (⟨data0, Value.zero⟩ : param α) b).2 = none
    ∧ param.MarshalJSON marshal
        (param.UnmarshalJSON (⟨data0, Value.zero⟩ : param α) b).1 = (b, none) := by
  simp [param.UnmarshalJSON, param.MarshalJSON, copy_make]

/-- C3 on the zero param with the empty input and with bytes that are not JSON. -/
theorem param_unmarshal_marshal_roundtrip_witness :
    param.MarshalJSON jsonMarshal
        (param.UnmarshalJSON (⟨[], Value.zero⟩ : param GoVal) []).1 = ([], none)
    ∧ param.MarshalJSON jsonMarshal
        (param.UnmarshalJSON (⟨[], Value.zero⟩ : param GoVal) [123, 255, 0]).1
        = ([123, 255, 0], none) :=
  ⟨(param_unmarshal_marshal_roundtrip jsonMarshal [] []).2,
    (param_unmarshal_marshal_roundtrip jsonMarshal [] [123, 255, 0]).2⟩

/-- C9, as stated, fails at the nil value: `reflect.ValueOf(nil)` is the zero Value, so the
param encodes to its empty raw bytes, while `json.Marshal(nil)` is the text `null`. -/
theorem param_marshal_nil_counterexample :
    param.MarshalJSON jsonMarshal (⟨[], Value.ValueOf none⟩ : param GoVal) = ([], none)
    ∧ jsonMarshal none = ([110, 117, 108, 108], none)
    ∧ param.MarshalJSON jsonMarshal (⟨[], Value.ValueOf none⟩ : param GoVal)
        ≠ jsonMarshal none := by
  refine ⟨rfl, rfl, ?_⟩
  simp [param.MarshalJSON, Value.ValueOf, jsonMarshal]

/-- C9, amended: for every value `v` other than the nil interface value, a param holding
`reflect.ValueOf(v)` and no raw bytes encodes with `MarshalJSON` to exactly what
`json.Marshal(v)` returns, bytes and error. -/
theorem param_marshal_typed {α ε : Type} (marshal : Option α → List Byte × Option ε)
    (v : α) :
    param.MarshalJSON marshal (⟨[], Value.ValueOf (some v)⟩ : param α)
      = marshal (some v) := by
  simp [param.MarshalJSON, Value.ValueOf]

/-- C9 on the boolean `true`, which encodes as the text `true`, and on a channel, whose
error comes back unchanged. -/
theorem param_marshal_typed_witness :
    param.MarshalJSON jsonMarshal ⟨[], Value.ValueOf (some (GoVal.bool true))⟩
        = ([116, 114, 117, 101], none)
    ∧ param.MarshalJSON jsonMarshal ⟨[], Value.ValueOf (some GoVal.chanInt)⟩
        = ([], some "json: unsupported type: chan int") :=
  ⟨param_marshal_typed jsonMarshal (GoVal.bool true),
    param_marshal_typed jsonMarshal GoVal.chanInt⟩

/-- C10: `MarshalJSON` returns an error exactly when the param holds a typed value whose
serialization fails; the error is then the serializer's, unchanged, and a param holding
only raw bytes returns no error. -/
theorem param_marshal_error_iff {α ε : Type} (marshal : Option α → List Byte × Option ε)
    (p : param α) :
    ((param.MarshalJSON marshal p).2 ≠ none ↔
        ∃ i, p.v = Value.valid i ∧ (marshal i).2 ≠ none)
    ∧ (∀ i, p.v = Value.valid i → (param.MarshalJSON marshal p).2 = (marshal i).2)
    ∧ (p.v = Value.zero → param.MarshalJSON marshal p = (p.data, none)) := by
  obtain ⟨data, v⟩ := p
  cases v with
  | zero => simp [param.MarshalJSON]
  | valid i => simp [param.MarshalJSON]

/-- C10 on a channel, which `json.Marshal` rejects, on a boolean, and on raw bytes. -/
theorem param_marshal_error_iff_witness :
    (param.MarshalJSON jsonMarshal ⟨[], Value.ValueOf (some GoVal.chanInt)⟩).2
        = some "json: unsupported type: chan int"
    ∧ (param.MarshalJSON jsonMarshal ⟨[], Value.ValueOf (some (GoVal.bool true))⟩).2 = none
    ∧ param.MarshalJSON jsonMarshal (⟨[1, 2], Value.zero⟩ : param GoVal) = ([1, 2], none) :=
  ⟨(param_marshal_error_iff jsonMarshal ⟨[], Value.ValueOf (some GoVal.chanInt)⟩).2.1 _ rfl,
    (param_marshal_error_iff jsonMarshal
      ⟨[], Value.ValueOf (some (GoVal.bool true))⟩).2.1 _ rfl,
    (param_marshal_error_iff jsonMarshal (⟨[1, 2], Value.zero⟩ : param GoVal)).2.2 rfl⟩

/-! ## Theorems: rounding to binary64 -/

theorem roundHalfEven_intCast (n : ℤ) : roundHalfEven (n : ℚ) = n := by
  simp [roundHalfEven]

theorem floor_le_roundHalfEven (m : ℚ) : ⌊m⌋ ≤ roundHalfEven m := by
  unfold roundHalfEven
  simp only
  split_ifs <;> omega

theorem roundHalfEven_le_floor_add_one (m : ℚ) : roundHalfEven m ≤ ⌊m⌋ + 1 := by
  unfold roundHalfEven
  simp only
  split_ifs <;> omega

/-- Rounding to the nearest integer, ties to even, is monotone. -/
theorem roundHalfEven_mono {m₁ m₂ : ℚ} (h : m₁ ≤ m₂) :
    roundHalfEven m₁ ≤ roundHalfEven m₂ := by
  rcases (Int.floor_mono h).lt_or_eq with hlt | heq
  · calc roundHalfEven m₁ ≤ ⌊m₁⌋ + 1 := roundHalfEven_le_floor_add_one m₁
      _ ≤ ⌊m₂⌋ := hlt
      _ ≤ roundHalfEven m₂ := floor_le_roundHalfEven m₂
  · unfold roundHalfEven
    simp only
    rw [heq]
    have hd : m₁ - (⌊m₂⌋ : ℚ) ≤ m₂ - (⌊m₂⌋ : ℚ) := by linarith
    split_ifs <;> first | omega | (exfalso; linarith)

theorem roundHalfEven_eq_of_abs_lt {m : ℚ} {n : ℤ} (h : |m - n| < 1 / 2) :
    roundHalfEven m = n := by
  rw [abs_lt] at h
  unfold roundHalfEven
  simp only
  by_cases hm : (n : ℚ) ≤ m
  · have hf : ⌊m⌋ = n := by
      rw [Int.floor_eq_iff]
      constructor <;> linarith
    rw [hf, if_pos (by linarith)]
  · have hf : ⌊m⌋ = n - 1 := by
      rw [Int.floor_eq_iff]
      push_cast
      constructor <;> linarith
    rw [hf]
    push_cast
    rw [if_neg (by linarith), if_pos (by linarith)]
    ring

theorem roundHalfEven_tie (f : ℤ) :
    roundHalfEven ((f : ℚ) + 1 / 2) = if f % 2 = 0 then f else f + 1 := by
  have hf : ⌊(f : ℚ) + 1 / 2⌋ = f := by
    rw [Int.floor_eq_iff]
    constructor <;> linarith
  unfold roundHalfEven
  simp only
  rw [hf, if_neg (by linarith), if_neg (by linarith)]

/-- Rounding to the nearest integer, ties to even, is an odd function. -/
theorem roundHalfEven_neg (m : ℚ) : roundHalfEven (-m) = -roundHalfEven m := by
  by_cases hint : (⌊m⌋ : ℚ) = m
  · rw [← hint, ← Int.cast_neg, roundHalfEven_intCast, roundHalfEven_intCast]
  · have hlt : (⌊m⌋ : ℚ) < m := lt_of_le_of_ne (Int.floor_le m) hint
    have hlt' := Int.lt_floor_add_one m
    have hf : ⌊-m⌋ = -⌊m⌋ - 1 := by
      rw [Int.floor_eq_iff]
      push_cast
      constructor <;> linarith
    unfold roundHalfEven
    simp only
    rw [hf]
    push_cast
    split_ifs <;> first | omega | (exfalso; linarith)

theorem log_eq_of_zpow_le_lt {q : ℚ} {e : ℤ} (h1 : (2 : ℚ) ^ e ≤ q)
    (h2 : q < (2 : ℚ) ^ (e + 1)) : Int.log 2 q = e := by
  have hq : 0 < q := lt_of_lt_of_le (by positivity) h1
  have ha : e ≤ Int.log 2 q := by
    have := (Int.zpow_le_iff_le_log (b := 2) (by norm_num) hq (x := e)).1 (by exact_mod_cast h1)
    exact this
  have hb : Int.log 2 q < e + 1 := by
    have := (Int.lt_zpow_iff_log_lt (b := 2) (by norm_num) hq (x := e + 1)).1
      (by exact_mod_cast h2)
    exact this
  omega

theorem ulpExp_ge (q : ℚ) : -1074 ≤ ulpExp q := by
  unfold ulpExp
  have := le_max_right (Int.log 2 |q|) (-1022)
  omega

theorem ulpExp_neg (q : ℚ) : ulpExp (-q) = ulpExp q := by
  simp [ulpExp]

theorem ulpExp_mono {q₁ q₂ : ℚ} (h0 : 0 < q₁) (h : q₁ ≤ q₂) : ulpExp q₁ ≤ ulpExp q₂ := by
  unfold ulpExp
  have hl : Int.log 2 |q₁| ≤ Int.log 2 |q₂| := by
    rw [abs_of_pos h0, abs_of_pos (lt_of_lt_of_le h0 h)]
    exact Int.log_mono_right h0 h
  have := max_le_max hl (le_refl (-1022 : ℤ))
  omega

theorem lt_zpow_ulpExp (q : ℚ) : |q| < 2 ^ (ulpExp q + 53) := by
  have h := Int.lt_zpow_succ_log_self (b := 2) (by norm_num) |q|
  have hle : Int.log 2 |q| + 1 ≤ ulpExp q + 53 := by
    unfold ulpExp
    have := le_max_left (Int.log 2 |q|) (-1022)
    omega
  calc |q| < ((2 : ℕ) : ℚ) ^ (Int.log 2 |q| + 1) := h
    _ = (2 : ℚ) ^ (Int.log 2 |q| + 1) := by norm_num
    _ ≤ 2 ^ (ulpExp q + 53) := zpow_le_zpow_right₀ (by norm_num) hle

theorem zpow_ulpExp_le {q : ℚ} (hq : q ≠ 0) (hn : -1022 ≤ Int.log 2 |q|) :
    (2 : ℚ) ^ (ulpExp q + 52) ≤ |q| := by
  have h := Int.zpow_log_le_self (b := 2) (by norm_num) (abs_pos.2 hq)
  have he : ulpExp q + 52 = Int.log 2 |q| := by
    unfold ulpExp
    rw [max_eq_left hn]
    ring
  rw [he]
  calc (2 : ℚ) ^ Int.log 2 |q| = ((2 : ℕ) : ℚ) ^ Int.log 2 |q| := by norm_num
    _ ≤ |q| := h

theorem rne_zero : rne 0 = 0 := by
  simp [rne, roundHalfEven]

theorem rne_nonneg {q : ℚ} (hq : 0 ≤ q) : 0 ≤ rne q := by
  unfold rne
  have hu : (0 : ℚ) < 2 ^ ulpExp q := by positivity
  have h0 : (0 : ℤ) ≤ roundHalfEven (q / 2 ^ ulpExp q) := by
    have := roundHalfEven_mono (show (0 : ℚ) ≤ q / 2 ^ ulpExp q by positivity)
    simpa [roundHalfEven] using this
  have : (0 : ℚ) ≤ (roundHalfEven (q / 2 ^ ulpExp q) : ℚ) := by exact_mod_cast h0
  positivity

theorem roundHalfEven_div_le {q : ℚ} (hq : 0 ≤ q) :
    roundHalfEven (q / 2 ^ ulpExp q) ≤ 2 ^ 53 := by
  have hu : (0 : ℚ) < 2 ^ ulpExp q := by positivity
  have hlt := lt_zpow_ulpExp q
  rw [abs_of_nonneg hq, zpow_add₀ (by norm_num : (2 : ℚ) ≠ 0)] at hlt
  have hdiv : q / 2 ^ ulpExp q ≤ ((2 ^ 53 : ℤ) : ℚ) := by
    rw [div_le_iff₀ hu]
    push_cast
    have : (2 : ℚ) ^ (53 : ℤ) = 2 ^ 53 := by norm_cast
    rw [this] at hlt
    linarith
  have h := roundHalfEven_mono hdiv
  rwa [roundHalfEven_intCast] at h

theorem roundHalfEven_div_nonneg {q : ℚ} (hq : 0 ≤ q) :
    0 ≤ roundHalfEven (q / 2 ^ ulpExp q) := by
  have := roundHalfEven_mono (show ((0 : ℤ) : ℚ) ≤ q / 2 ^ ulpExp q by
    push_cast; positivity)
  rwa [roundHalfEven_intCast] at this

theorem rne_le_zpow {q : ℚ} (hq : 0 ≤ q) : rne q ≤ 2 ^ (ulpExp q + 53) := by
  have hu : (0 : ℚ) < 2 ^ ulpExp q := by positivity
  have hc : (roundHalfEven (q / 2 ^ ulpExp q) : ℚ) ≤ 2 ^ 53 := by
    exact_mod_cast roundHalfEven_div_le hq
  have h53 : (2 : ℚ) ^ (53 : ℤ) = 2 ^ 53 := by norm_cast
  unfold rne
  rw [zpow_add₀ (by norm_num : (2 : ℚ) ≠ 0), h53, mul_comm ((2 : ℚ) ^ ulpExp q)]
  exact mul_le_mul_of_nonneg_right hc hu.le

theorem zpow_le_rne {q : ℚ} (hq : 0 < q) (hn : -1022 ≤ Int.log 2 |q|) :
    (2 : ℚ) ^ (ulpExp q + 52) ≤ rne q := by
  have hu : (0 : ℚ) < 2 ^ ulpExp q := by positivity
  have hle := zpow_ulpExp_le hq.ne' hn
  rw [abs_of_pos hq, zpow_add₀ (by norm_num : (2 : ℚ) ≠ 0)] at hle
  have h52 : (2 : ℚ) ^ (52 : ℤ) = 2 ^ 52 := by norm_cast
  have hdiv : ((2 ^ 52 : ℤ) : ℚ) ≤ q / 2 ^ ulpExp q := by
    rw [le_div_iff₀ hu]
    push_cast
    rw [h52] at hle
    linarith
  have h := roundHalfEven_mono hdiv
  rw [roundHalfEven_intCast] at h
  have hc : (2 : ℚ) ^ 52 ≤ (roundHalfEven (q / 2 ^ ulpExp q) : ℚ) := by exact_mod_cast h
  unfold rne
  rw [zpow_add₀ (by norm_num : (2 : ℚ) ≠ 0), h52, mul_comm ((2 : ℚ) ^ ulpExp q)]
  exact mul_le_mul_of_nonneg_right hc hu.le

/-- Rounding to binary64 is monotone on the non-negative rationals. -/
theorem rne_mono {q₁ q₂ : ℚ} (h0 : 0 ≤ q₁) (h : q₁ ≤ q₂) : rne q₁ ≤ rne q₂ := by
  rcases h0.eq_or_lt with hz | hpos
  · rw [← hz, rne_zero]
    exact rne_nonneg (h0.trans h)
  · have hpos2 : 0 < q₂ := lt_of_lt_of_le hpos h
    rcases (ulpExp_mono hpos h).eq_or_lt with he | hlt
    · unfold rne
      rw [he]
      have hu : (0 : ℚ) < 2 ^ ulpExp q₂ := by positivity
      have hd : q₁ / 2 ^ ulpExp q₂ ≤ q₂ / 2 ^ ulpExp q₂ :=
        div_le_div_of_nonneg_right h hu.le
      have := roundHalfEven_mono hd
      exact mul_le_mul_of_nonneg_right (by exact_mod_cast this) hu.le
    · have hn : -1022 ≤ Int.log 2 |q₂| := by
        have h1 := ulpExp_ge q₁
        by_contra hcon
        have : ulpExp q₂ = -1074 := by
          unfold ulpExp
          rw [max_eq_right (by omega)]
          norm_num
        omega
      calc rne q₁ ≤ 2 ^ (ulpExp q₁ + 53) := rne_le_zpow hpos.le
        _ ≤ 2 ^ (ulpExp q₂ + 52) := zpow_le_zpow_right₀ (by norm_num) (by omega)
        _ ≤ rne q₂ := zpow_le_rne hpos2 hn

/-- A value `n * 2^k` with fewer than 54 significant bits and `k ≥ -1074` is a binary64
value: rounding leaves it unchanged. -/
theorem rne_repr (n k : ℤ) (hn : |n| < 2 ^ 53) (hk : -1074 ≤ k) :
    rne ((n : ℚ) * 2 ^ k) = (n : ℚ) * 2 ^ k := by
  rcases eq_or_ne n 0 with rfl | hn0
  · simp [rne_zero]
  · have h2k : (0 : ℚ) < 2 ^ k := by positivity
    have hq : (n : ℚ) * 2 ^ k ≠ 0 := mul_ne_zero (by exact_mod_cast hn0) h2k.ne'
    have habs : |(n : ℚ) * 2 ^ k| < 2 ^ (53 + k) := by
      rw [abs_mul, abs_of_pos h2k, zpow_add₀ (by norm_num : (2 : ℚ) ≠ 0)]
      have : |(n : ℚ)| < 2 ^ (53 : ℤ) := by
        have h1 : ((|n| : ℤ) : ℚ) < ((2 ^ 53 : ℤ) : ℚ) := by exact_mod_cast hn
        rw [Int.cast_abs] at h1
        have h53 : (2 : ℚ) ^ (53 : ℤ) = ((2 ^ 53 : ℤ) : ℚ) := by norm_cast
        rw [h53]
        exact h1
      exact mul_lt_mul_of_pos_right this h2k
    have hlog : Int.log 2 |(n : ℚ) * 2 ^ k| < 53 + k :=
      (Int.lt_zpow_iff_log_lt (b := 2) (by norm_num) (abs_pos.2 hq)).1
        (by exact_mod_cast habs)
    have hu : ulpExp ((n : ℚ) * 2 ^ k) ≤ k := by
      unfold ulpExp
      have := max_le (show Int.log 2 |(n : ℚ) * 2 ^ k| ≤ k + 52 by omega)
        (show (-1022 : ℤ) ≤ k + 52 by omega)
      omega
    obtain ⟨d, hd⟩ := Int.eq_ofNat_of_zero_le (sub_nonneg.2 hu)
    have hk' : k = ulpExp ((n : ℚ) * 2 ^ k) + d := by omega
    have hsplit : (2 : ℚ) ^ k = 2 ^ d * 2 ^ ulpExp ((n : ℚ) * 2 ^ k) := by
      conv_lhs => rw [hk']
      rw [zpow_add₀ (by norm_num : (2 : ℚ) ≠ 0), zpow_natCast, mul_comm]
    have hpos : (0 : ℚ) < 2 ^ ulpExp ((n : ℚ) * 2 ^ k) := by positivity
    have hdiv : (n : ℚ) * 2 ^ k / 2 ^ ulpExp ((n : ℚ) * 2 ^ k) = ((n * 2 ^ d : ℤ) : ℚ) := by
      rw [div_eq_iff hpos.ne']
      push_cast
      rw [mul_assoc, ← hsplit]
    unfold rne
    rw [hdiv, roundHalfEven_intCast]
    push_cast
    rw [mul_assoc, ← hsplit]

/-- Rounding is idempotent on the non-negative rationals: a rounded value is a binary64
value. -/
theorem rne_idem {q : ℚ} (hq : 0 ≤ q) : rne (rne q) = rne q := by
  have hle := roundHalfEven_div_le hq
  have h0 := roundHalfEven_div_nonneg hq
  have hu := ulpExp_ge q
  rcases hle.lt_or_eq with hlt | heq
  · have := rne_repr (roundHalfEven (q / 2 ^ ulpExp q)) (ulpExp q)
      (by rw [abs_of_nonneg h0]; exact hlt) hu
    simpa [rne] using this
  · have h1 := rne_repr 1 (ulpExp q + 53) (by norm_num) (by omega)
    have hr : rne q = ((1 : ℤ) : ℚ) * 2 ^ (ulpExp q + 53) := by
      unfold rne
      rw [heq, zpow_add₀ (by norm_num : (2 : ℚ) ≠ 0)]
      push_cast
      have : (2 : ℚ) ^ (53 : ℤ) = 2 ^ 53 := by norm_cast
      rw [this]
      ring
    rw [hr]
    exact h1

/-- Every integer of magnitude at most `2^53` is a binary64 value. -/
theorem rne_intCast {n : ℤ} (hn : |n| ≤ 2 ^ 53) : rne (n : ℚ) = n := by
  rcases hn.lt_or_eq with hlt | heq
  · simpa using rne_repr n 0 hlt (by norm_num)
  · rcases abs_eq (by norm_num : (0 : ℤ) ≤ 2 ^ 53) |>.1 heq with h | h
    · have := rne_repr 1 53 (by norm_num) (by norm_num)
      rw [h]
      push_cast
      have h53 : (2 : ℚ) ^ (53 : ℤ) = 2 ^ 53 := by norm_cast
      rw [h53] at this
      simpa using this
    · have := rne_repr (-1) 53 (by norm_num) (by norm_num)
      rw [h]
      push_cast
      have h53 : (2 : ℚ) ^ (53 : ℤ) = 2 ^ 53 := by norm_cast
      rw [h53] at this
      simpa using this

/-- Rounding to binary64 is an odd function. -/
theorem rne_neg (q : ℚ) : rne (-q) = -rne q := by
  unfold rne
  rw [ulpExp_neg, neg_div, roundHalfEven_neg]
  push_cast
  ring

/-- Rounding to binary64 is monotone. -/
theorem rne_monotone {q₁ q₂ : ℚ} (h : q₁ ≤ q₂) : rne q₁ ≤ rne q₂ := by
  rcases le_total 0 q₁ with h1 | h1
  · exact rne_mono h1 h
  · rcases le_total 0 q₂ with h2 | h2
    · have ha : rne q₁ ≤ 0 := by
        have := rne_nonneg (neg_nonneg.2 h1)
        rw [rne_neg] at this
        linarith
      exact ha.trans (rne_nonneg h2)
    · have := rne_mono (neg_nonneg.2 h2) (neg_le_neg h)
      rw [rne_neg, rne_neg] at this
      linarith

/-- Rounding to binary64 is idempotent: a rounded value is a binary64 value. -/
theorem rne_rne (q : ℚ) : rne (rne q) = rne q := by
  rcases le_total 0 q with h | h
  · exact rne_idem h
  · have := rne_idem (neg_nonneg.2 h)
    rw [rne_neg, rne_neg] at this
    linarith

theorem two_zpow_eq_rne (k : ℤ) (hk : -1074 ≤ k) : rne ((2 : ℚ) ^ k) = 2 ^ k := by
  simpa using rne_repr 1 k (by norm_num) hk

theorem two_pow_eq_rne (k : ℕ) : rne ((2 : ℚ) ^ k) = 2 ^ k := by
  have := two_zpow_eq_rne (k : ℤ) (by omega)
  rwa [zpow_natCast] at this

/-- The rounding of a positive normal `q` whose binary exponent is `e`. -/
theorem rne_eq_of_binade {q : ℚ} (e : ℤ) (h1 : (2 : ℚ) ^ e ≤ q) (h2 : q < (2 : ℚ) ^ (e + 1))
    (he : -1022 ≤ e) :
    rne q = roundHalfEven (q / 2 ^ (e - 52)) * 2 ^ (e - 52) := by
  have hq : 0 < q := lt_of_lt_of_le (by positivity) h1
  have hu : ulpExp q = e - 52 := by
    unfold ulpExp
    rw [abs_of_pos hq, log_eq_of_zpow_le_lt h1 h2, max_eq_left he]
  unfold rne
  rw [hu]

/-! ## Theorems: float64 operations -/

/-- A non-negative exact result of at most `2^1023` rounds to a finite `float64`. -/
theorem float64_finite {q : ℚ} (h0 : 0 ≤ q) (h : q ≤ 2 ^ 1023) :
    float64 q = Float64.finite (rne q) := by
  have h1 : rne q ≤ 2 ^ 1023 := by
    have := rne_mono h0 h
    rwa [two_pow_eq_rne] at this
  have h2 : |rne q| < 2 ^ 1024 := by
    rw [abs_of_nonneg (rne_nonneg h0)]
    calc rne q ≤ 2 ^ 1023 := h1
      _ < 2 ^ 1024 := by norm_num
  simp [float64, h2]

/-- An integer of magnitude at most `2^53` converts to `float64` exactly. -/
theorem float64_intCast {n : ℤ} (h0 : 0 ≤ n) (hn : n ≤ 2 ^ 53) :
    float64 (n : ℚ) = Float64.finite n := by
  have hq : (n : ℚ) ≤ 2 ^ 1023 := by
    have : (n : ℚ) ≤ ((2 ^ 53 : ℤ) : ℚ) := by exact_mod_cast hn
    push_cast at this
    calc (n : ℚ) ≤ 2 ^ 53 := this
      _ ≤ 2 ^ 1023 := by norm_num
  rw [float64_finite (by exact_mod_cast h0) hq, rne_intCast (by rw [abs_of_nonneg h0]; exact hn)]

theorem float64_of_repr {q : ℚ} (n k : ℤ) (hq : q = (n : ℚ) * 2 ^ k) (h0 : 0 ≤ n)
    (hn : n < 2 ^ 53) (hk : -1074 ≤ k) (hfin : q ≤ 2 ^ 1023) :
    float64 q = Float64.finite q := by
  have hn0 : (0 : ℚ) ≤ (n : ℚ) := by exact_mod_cast h0
  have hnn : 0 ≤ q := by
    rw [hq]
    exact mul_nonneg hn0 (zpow_nonneg (by norm_num) k)
  have hr : rne q = q := by
    rw [hq]
    exact rne_repr n k (by rw [abs_of_nonneg h0]; exact hn) hk
  have hf := float64_finite hnn hfin
  rw [hr] at hf
  exact hf

theorem float64_eq_of_round {q : ℚ} (e n : ℤ) (h1 : (2 : ℚ) ^ e ≤ q)
    (h2 : q < (2 : ℚ) ^ (e + 1)) (he : -1022 ≤ e) (hfin : q ≤ 2 ^ 1023)
    (hn : roundHalfEven (q / 2 ^ (e - 52)) = n) :
    float64 q = Float64.finite ((n : ℚ) * 2 ^ (e - 52)) := by
  have hq : 0 < q := lt_of_lt_of_le (by positivity) h1
  rw [float64_finite hq.le hfin, rne_eq_of_binade e h1 h2 he, hn]

theorem rne_eq_of_float64 {q a : ℚ} (h : float64 q = Float64.finite a) : a = rne q := by
  unfold float64 at h
  split_ifs at h
  injection h with h
  exact h.symm

theorem float64_atLeast {c q : ℚ} (h0 : 0 ≤ c) (hc : rne c = c) (h : c ≤ q) :
    (float64 q).atLeast c := by
  unfold float64
  split_ifs
  · show c ≤ rne q
    rw [← hc]
    exact rne_mono h0 h
  · trivial

theorem mul_atLeast {x y : Float64} {a b : ℚ} (hx : x.atLeast a) (hy : y.atLeast b)
    (ha : 0 ≤ a) (hb : 0 ≤ b) (hab : rne (a * b) = a * b) : (x.mul y).atLeast (a * b) := by
  cases x with
  | notFinite => trivial
  | finite p =>
    cases y with
    | notFinite => trivial
    | finite r =>
      have hp : a ≤ p := hx
      have hr : b ≤ r := hy
      exact float64_atLeast (mul_nonneg ha hb) hab
        (mul_le_mul hp hr hb (ha.trans hp))

theorem add_atLeast {x y : Float64} {a : ℚ} (hx : x.atLeast a) (hy : y.atLeast 0)
    (ha : 0 ≤ a) (hra : rne a = a) : (x.add y).atLeast a := by
  cases x with
  | notFinite => trivial
  | finite p =>
    cases y with
    | notFinite => trivial
    | finite r =>
      have hp : a ≤ p := hx
      have hr : 0 ≤ r := hy
      exact float64_atLeast ha hra (by linarith)

/-- A `float64` of at least `2^63`, or one that is not finite, converts to `-2^63`. -/
theorem toInt64_of_atLeast {x : Float64} (h : x.atLeast (2 ^ 63)) :
    x.toInt64 = -2 ^ 63 := by
  cases x with
  | notFinite => rfl
  | finite a =>
    have ha : (2 : ℚ) ^ 63 ≤ a := h
    have h0 : (0 : ℚ) ≤ a := le_trans (by norm_num) ha
    have hf : (2 : ℤ) ^ 63 ≤ ⌊a⌋ := by
      rw [Int.le_floor]
      push_cast
      exact ha
    simp only [Float64.toInt64, if_pos h0]
    rw [if_neg (by omega)]

/-- A non-negative finite `float64` below `2^63` converts to its integer part. -/
theorem toInt64_finite {a : ℚ} (h0 : 0 ≤ a) (h : a < 2 ^ 63) :
    (Float64.finite a).toInt64 = ⌊a⌋ := by
  have h1 : 0 ≤ ⌊a⌋ := Int.floor_nonneg.2 h0
  have h2 : ⌊a⌋ < 2 ^ 63 := by
    rw [Int.floor_lt]
    push_cast
    exact h
  simp only [Float64.toInt64, if_pos h0]
  rw [if_pos ⟨by omega, h2⟩]

theorem toInt64_finite_eq {a : ℚ} (n : ℤ) (h0 : 0 ≤ a) (h : a < 2 ^ 63)
    (hn : (n : ℚ) ≤ a ∧ a < n + 1) : (Float64.finite a).toInt64 = n := by
  rw [toInt64_finite h0 h, Int.floor_eq_iff]
  exact hn

theorem powCR_zero (x : ℚ) :
    powCR (Float64.finite x) (Float64.finite 0) = Float64.finite 1 := by
  have h := float64_intCast (n := 1) (by norm_num) (by norm_num)
  simp only [powCR, Int.floor_zero, zpow_zero]
  simpa using h

theorem powCR_intCast (x : ℚ) {n : ℤ} (h0 : 0 ≤ n) (hn : n ≤ 2 ^ 53) :
    powCR (Float64.finite x) (float64 (n : ℚ)) = float64 (x ^ n) := by
  rw [float64_intCast h0 hn]
  simp only [powCR, Int.floor_intCast]

/-! ## Theorems: backoff -/

theorem jitter_atLeast_zero {rand : ℚ} {n : ℤ} (hr : 0 ≤ rand) (hn : 0 ≤ n) :
    ((Float64.finite rand).mul (float64 n)).atLeast 0 := by
  have h1 : (Float64.finite rand).atLeast 0 := hr
  have h2 : (float64 (n : ℚ)).atLeast 0 :=
    float64_atLeast le_rfl rne_zero (by exact_mod_cast hn)
  have := mul_atLeast h1 h2 le_rfl le_rfl (by simp [rne_zero])
  simpa using this

/-- When the delay before jitter is at least `2^63` or is not finite, `next` returns
`-2^63`: the conversion overflows and the comparison with `maxDelay` does not clamp it. -/
theorem next_of_base_atLeast (pow : Float64 → Float64 → Float64) (b : backoff) (rand : ℚ)
    (attempt : ℤ) (h0 : 0 ≤ attempt) (hr : 0 ≤ rand) (hmin : 0 ≤ b.minDelay)
    (hmax : -2 ^ 63 ≤ b.maxDelay) (hbase : (b.base pow attempt).atLeast (2 ^ 63)) :
    b.next pow rand attempt = -2 ^ 63 := by
  have hsum := add_atLeast hbase (jitter_atLeast_zero hr hmin) (by norm_num)
    (two_pow_eq_rne 63)
  have hconv := toInt64_of_atLeast hsum
  unfold backoff.base at hconv
  unfold backoff.next
  simp only
  rw [if_neg (by omega), hconv, if_neg (by omega)]

theorem base_powCR_atLeast (b : backoff) (attempt : ℤ) (hmin : 2 ^ 26 ≤ b.minDelay)
    (ha : 64 ≤ attempt) (ha' : attempt ≤ 2 ^ 53) :
    (b.base powCR attempt).atLeast (2 ^ 63) := by
  have h1 : (float64 (b.minDelay : ℚ)).atLeast (2 ^ 26) := by
    refine float64_atLeast (by norm_num) (two_pow_eq_rne 26) ?_
    have : ((2 ^ 26 : ℤ) : ℚ) ≤ (b.minDelay : ℚ) := by exact_mod_cast hmin
    push_cast at this
    exact this
  have h2 : (powCR (Float64.finite (3 / 2)) (float64 (attempt : ℚ))).atLeast (2 ^ 37) := by
    rw [float64_intCast (by omega) ha']
    simp only [powCR, Int.floor_intCast]
    refine float64_atLeast (by norm_num) (two_pow_eq_rne 37) ?_
    calc (2 : ℚ) ^ 37 ≤ (3 / 2 : ℚ) ^ (64 : ℤ) := by norm_num
      _ ≤ (3 / 2 : ℚ) ^ attempt := zpow_le_zpow_right₀ (by norm_num) ha
  have := mul_atLeast h1 h2 (by norm_num) (by norm_num)
    (by rw [← pow_add]; exact two_pow_eq_rne _)
  unfold backoff.base
  rw [← pow_add] at this
  exact this

/-- Unfolding of `next` for a non-negative attempt whose intermediate results are finite. -/
theorem next_eq_of_finite (pow : Float64 → Float64 → Float64) (b : backoff) (rand : ℚ)
    (attempt : ℤ) (h0 : 0 ≤ attempt) {m p B j s : ℚ}
    (hm : float64 (b.minDelay : ℚ) = Float64.finite m)
    (hp : pow (Float64.finite (3 / 2)) (float64 (attempt : ℚ)) = Float64.finite p)
    (hB : float64 (m * p) = Float64.finite B)
    (hj : float64 (rand * m) = Float64.finite j)
    (hs : float64 (B + j) = Float64.finite s) :
    b.next pow rand attempt =
      if (Float64.finite s).toInt64 > b.maxDelay then b.maxDelay
      else (Float64.finite s).toInt64 := by
  unfold backoff.next
  simp only
  rw [if_neg (by omega), hm, hp]
  simp only [Float64.mul, Float64.add, hB, hj, hs]

/-- The window of `next`: when the delay before jitter is a finite `B ≥ 0` and the
`float64` sum of `B` and `float64(minDelay)` is below `2^63`, the result for a draw in
`[0, 1)` lies between `⌊B⌋` and the integer part of that sum, both capped at `maxDelay`. -/
theorem next_window (pow : Float64 → Float64 → Float64) (b : backoff) (rand : ℚ)
    (attempt : ℤ) (B : ℚ) (ha : 0 ≤ attempt) (hmin : 0 ≤ b.minDelay)
    (hbase : b.base pow attempt = Float64.finite B) (hB0 : 0 ≤ B)
    (hrange : rne (B + rne b.minDelay) < 2 ^ 63) (hr0 : 0 ≤ rand) (hr1 : rand < 1) :
    min ⌊B⌋ b.maxDelay ≤ b.next pow rand attempt
    ∧ b.next pow rand attempt ≤ min ⌊rne (B + rne b.minDelay)⌋ b.maxDelay := by
  have hminq : (0 : ℚ) ≤ (b.minDelay : ℚ) := by exact_mod_cast hmin
  have hm0 : 0 ≤ rne (b.minDelay : ℚ) := rne_nonneg hminq
  -- the delay before jitter is a rounded product
  obtain ⟨m, p, hm, hp, hBp⟩ : ∃ m p, float64 (b.minDelay : ℚ) = Float64.finite m
      ∧ pow (Float64.finite (3 / 2)) (float64 (attempt : ℚ)) = Float64.finite p
      ∧ float64 (m * p) = Float64.finite B := by
    unfold backoff.base at hbase
    cases hmf : float64 (b.minDelay : ℚ) with
    | notFinite => rw [hmf] at hbase; simp [Float64.mul] at hbase
    | finite m =>
      rw [hmf] at hbase
      cases hpw : pow (Float64.finite (3 / 2)) (float64 (attempt : ℚ)) with
      | notFinite => rw [hpw] at hbase; simp [Float64.mul] at hbase
      | finite p => rw [hpw] at hbase; exact ⟨m, p, rfl, rfl, by simpa [Float64.mul] using hbase⟩
  have hmr : m = rne (b.minDelay : ℚ) := rne_eq_of_float64 hm
  rw [hmr] at hm hBp
  have hrB : rne B = B := by
    rw [rne_eq_of_float64 hBp, rne_rne]
  -- the sum of the delay before jitter and the largest jitter is below `2^63`
  have hsum63 : B + rne (b.minDelay : ℚ) < 2 ^ 63 := by
    by_contra hcon
    have := rne_monotone (not_lt.1 hcon)
    rw [two_pow_eq_rne 63] at this
    exact absurd hrange (not_lt.2 this)
  have h1023 : (2 : ℚ) ^ 63 ≤ 2 ^ 1023 := by norm_num
  -- the jitter
  have hjle : rand * rne (b.minDelay : ℚ) ≤ rne (b.minDelay : ℚ) := by nlinarith
  have hj : float64 (rand * rne (b.minDelay : ℚ))
      = Float64.finite (rne (rand * rne (b.minDelay : ℚ))) :=
    float64_finite (mul_nonneg hr0 hm0) (by linarith)
  have hj0 : 0 ≤ rne (rand * rne (b.minDelay : ℚ)) := rne_nonneg (mul_nonneg hr0 hm0)
  have hj1 : rne (rand * rne (b.minDelay : ℚ)) ≤ rne (b.minDelay : ℚ) := by
    have := rne_monotone hjle
    rwa [rne_rne] at this
  -- the sum
  have hs : float64 (B + rne (rand * rne (b.minDelay : ℚ)))
      = Float64.finite (rne (B + rne (rand * rne (b.minDelay : ℚ)))) :=
    float64_finite (add_nonneg hB0 hj0) (by linarith)
  have hlo : B ≤ rne (B + rne (rand * rne (b.minDelay : ℚ))) := by
    have := rne_monotone (show B ≤ B + rne (rand * rne (b.minDelay : ℚ)) by linarith)
    rwa [hrB] at this
  have hhi : rne (B + rne (rand * rne (b.minDelay : ℚ))) ≤ rne (B + rne (b.minDelay : ℚ)) :=
    rne_monotone (by linarith)
  have hconv := toInt64_finite (hB0.trans hlo) (lt_of_le_of_lt hhi hrange)
  have hfl : ⌊B⌋ ≤ ⌊rne (B + rne (rand * rne (b.minDelay : ℚ)))⌋ := Int.floor_mono hlo
  have hfh : ⌊rne (B + rne (rand * rne (b.minDelay : ℚ)))⌋ ≤ ⌊rne (B + rne (b.minDelay : ℚ))⌋ :=
    Int.floor_mono hhi
  have hnext := next_eq_of_finite pow b rand attempt ha hm hp hBp hj hs
  rw [hnext, hconv]
  split_ifs with hgt
  · constructor
    · exact min_le_right _ _
    · exact le_min (by omega) le_rfl
  · constructor
    · exact (min_le_left _ _).trans hfl
    · exact le_min hfh (by omega)

theorem float64_largest_draw_jitter :
    float64 ((1 - 1 / 2 ^ 53) * (100000000 : ℚ))
      = Float64.finite (6710886399999999 / 67108864) := by
  have := float64_eq_of_round (q := (1 - 1 / 2 ^ 53) * (100000000 : ℚ)) 26
    6710886399999999 (by norm_num) (by norm_num) (by norm_num) (by norm_num)
    (roundHalfEven_eq_of_abs_lt (by norm_num [abs_lt]))
  rw [this]
  norm_num

theorem base_powCR_ten :
    (⟨100000000, 2000000000⟩ : backoff).base powCR 10
      = Float64.finite (23066015625 / 4) := by
  have hm : float64 ((100000000 : ℤ) : ℚ) = Float64.finite 100000000 := by
    simpa using float64_intCast (n := 100000000) (by norm_num) (by norm_num)
  have hp : powCR (Float64.finite (3 / 2)) (float64 ((10 : ℤ) : ℚ))
      = Float64.finite (59049 / 1024) := by
    rw [powCR_intCast _ (by norm_num) (by norm_num)]
    have := float64_of_repr (q := (59049 / 1024 : ℚ)) 59049 (-10) (by norm_num)
      (by norm_num) (by norm_num) (by norm_num) (by norm_num)
    norm_num at this ⊢
    exact this
  have hB : float64 ((100000000 : ℚ) * (59049 / 1024)) = Float64.finite (23066015625 / 4) := by
    have := float64_of_repr (q := (23066015625 / 4 : ℚ)) 23066015625 (-2) (by norm_num)
      (by norm_num) (by norm_num) (by norm_num) (by norm_num)
    norm_num at this ⊢
    exact this
  simp only [backoff.base]
  rw [hm, hp]
  simp only [Float64.mul]
  exact hB

/-- At `minDelay = 100ms` the `float64` sum of the delay before jitter of attempt 10 and
`float64(minDelay)` is exact. -/
theorem window_top_ten :
    rne ((23066015625 / 4 : ℚ)
        + rne (((⟨100000000, 2000000000⟩ : backoff).minDelay : ℤ) : ℚ)) = 23466015625 / 4 := by
  have h1 : rne (((100000000 : ℤ) : ℚ)) = ((100000000 : ℤ) : ℚ) :=
    rne_intCast (by norm_num)
  have h2 := rne_repr 23466015625 (-2) (by norm_num) (by norm_num)
  simp only []
  rw [h1]
  norm_num at h2 ⊢
  exact h2

/-- With `minDelay = 100ms` and `maxDelay = 2s`, `next(10)` is `maxDelay` for every draw in
`[0, 1)`. -/
theorem next_powCR_ten (r : ℚ) (hr0 : 0 ≤ r) (hr1 : r < 1) :
    (⟨100000000, 2000000000⟩ : backoff).next powCR r 10 = 2000000000 := by
  have hfloor : ⌊(23066015625 / 4 : ℚ)⌋ = 5766503906 := by
    rw [Int.floor_eq_iff]
    norm_num
  have hw := next_window powCR ⟨100000000, 2000000000⟩ r 10 (23066015625 / 4)
    (by norm_num) (by norm_num) base_powCR_ten (by norm_num)
    (by rw [window_top_ten]; norm_num) hr0 hr1
  rw [hfloor] at hw
  have h1 : min (5766503906 : ℤ) 2000000000 = 2000000000 := by decide
  have hw1 := hw.1
  have hw2 := hw.2.trans (min_le_right _ _)
  simp only [] at hw1 hw2
  rw [h1] at hw1
  omega

/-- With `minDelay = 2^53 + 3 ns`, which is not a `float64`, and attempt 0:
`float64(minDelay)` and the delay before jitter are `2^53 + 4`; the draw `0` gives
`2^53 + 4` and the largest draw below 1 gives `2^54 + 8`. -/
theorem next_rounded_minDelay :
    (⟨9007199254740995, 72057594037927936⟩ : backoff).base powCR 0
        = Float64.finite 9007199254740996
    ∧ (⟨9007199254740995, 72057594037927936⟩ : backoff).next powCR 0 0 = 9007199254740996
    ∧ (⟨9007199254740995, 72057594037927936⟩ : backoff).next powCR (1 - 1 / 2 ^ 53) 0
        = 18014398509481992 := by
  have hm : float64 (((⟨9007199254740995, 72057594037927936⟩ : backoff).minDelay : ℤ) : ℚ)
      = Float64.finite 9007199254740996 := by
    have htie : roundHalfEven ((9007199254740995 : ℚ) / 2 ^ ((53 : ℤ) - 52))
        = 4503599627370498 := by
      have : (9007199254740995 : ℚ) / 2 ^ ((53 : ℤ) - 52)
          = ((4503599627370497 : ℤ) : ℚ) + 1 / 2 := by norm_num
      rw [this, roundHalfEven_tie]
      decide
    have := float64_eq_of_round (q := (9007199254740995 : ℚ)) 53
      4503599627370498 (by norm_num) (by norm_num) (by norm_num) (by norm_num) htie
    simp only [Int.cast_ofNat]
    rw [this]
    norm_num
  have hz : float64 ((0 : ℤ) : ℚ) = Float64.finite 0 := by
    simpa using float64_intCast (le_refl 0) (by norm_num)
  have hp : powCR (Float64.finite (3 / 2)) (float64 ((0 : ℤ) : ℚ)) = Float64.finite 1 := by
    rw [hz]; exact powCR_zero _
  have h53 : float64 (9007199254740996 : ℚ) = Float64.finite 9007199254740996 :=
    float64_of_repr 2251799813685249 2 (by norm_num) (by norm_num) (by norm_num)
      (by norm_num) (by norm_num)
  have hB : float64 ((9007199254740996 : ℚ) * 1) = Float64.finite 9007199254740996 := by
    rw [mul_one]; exact h53
  have hj0 : float64 ((0 : ℚ) * 9007199254740996) = Float64.finite 0 := by
    rw [zero_mul]; simpa using hz
  have hs0 : float64 ((9007199254740996 : ℚ) + 0) = Float64.finite 9007199254740996 := by
    rw [add_zero]; exact h53
  have hj1 : float64 ((1 - 1 / 2 ^ 53) * (9007199254740996 : ℚ))
      = Float64.finite 9007199254740994 := by
    have := float64_eq_of_round (q := (1 - 1 / 2 ^ 53) * (9007199254740996 : ℚ)) 53
      4503599627370497 (by norm_num) (by norm_num) (by norm_num) (by norm_num)
      (roundHalfEven_eq_of_abs_lt (by norm_num [abs_lt]))
    rw [this]
    norm_num
  have hs1 : float64 ((9007199254740996 : ℚ) + 9007199254740994)
      = Float64.finite 18014398509481992 := by
    have htie : roundHalfEven (((9007199254740996 : ℚ) + 9007199254740994)
        / 2 ^ ((54 : ℤ) - 52)) = 4503599627370498 := by
      have : ((9007199254740996 : ℚ) + 9007199254740994) / 2 ^ ((54 : ℤ) - 52)
          = ((4503599627370497 : ℤ) : ℚ) + 1 / 2 := by norm_num
      rw [this, roundHalfEven_tie]
      decide
    have := float64_eq_of_round (q := (9007199254740996 : ℚ) + 9007199254740994) 54
      4503599627370498 (by norm_num) (by norm_num) (by norm_num) (by norm_num) htie
    rw [this]
    norm_num
  have hn0 := next_eq_of_finite powCR ⟨9007199254740995, 72057594037927936⟩ 0 0
    (le_refl 0) hm hp hB hj0 hs0
  have hn1 := next_eq_of_finite powCR ⟨9007199254740995, 72057594037927936⟩
    (1 - 1 / 2 ^ 53) 0 (le_refl 0) hm hp hB hj1 hs1
  have hc0 : (Float64.finite 9007199254740996).toInt64 = 9007199254740996 :=
    toInt64_finite_eq 9007199254740996 (by norm_num) (by norm_num) (by norm_num)
  have hc1 : (Float64.finite 18014398509481992).toInt64 = 18014398509481992 :=
    toInt64_finite_eq 18014398509481992 (by norm_num) (by norm_num) (by norm_num)
  refine ⟨?_, ?_, ?_⟩
  · simp only [backoff.base]
    rw [hp, hm]
    simp only [Float64.mul]
    exact hB
  · rw [hn0, hc0]
    decide
  · rw [hn1, hc1]
    decide

/-- Unfolding of `next` for `0 ≤ minDelay < 2^63` when `math.Pow` returns a finite `p ≥ 0`
and the rounded sum is below `2^63`: the sum is truncated and capped. -/
theorem next_eq_clamp (pow : Float64 → Float64 → Float64) (b : backoff) (rand : ℚ)
    (attempt : ℤ) (p : ℚ) (ha : 0 ≤ attempt) (hmin : 0 ≤ b.minDelay)
    (hmin63 : b.minDelay < 2 ^ 63)
    (hp : pow (Float64.finite (3 / 2)) (float64 (attempt : ℚ)) = Float64.finite p)
    (hp0 : 0 ≤ p) (hr0 : 0 ≤ rand) (hr1 : rand < 1)
    (hrange : rne (rne (rne b.minDelay * p) + rne (rand * rne b.minDelay)) < 2 ^ 63) :
    b.next pow rand attempt
        = (if ⌊rne (rne (rne b.minDelay * p) + rne (rand * rne b.minDelay))⌋ ≤ b.maxDelay
            then ⌊rne (rne (rne b.minDelay * p) + rne (rand * rne b.minDelay))⌋
            else b.maxDelay) := by
  have hminq : (0 : ℚ) ≤ (b.minDelay : ℚ) := by exact_mod_cast hmin
  have hmin63q : (b.minDelay : ℚ) ≤ 2 ^ 63 := by
    have : (b.minDelay : ℚ) ≤ ((2 ^ 63 : ℤ) : ℚ) := by exact_mod_cast hmin63.le
    push_cast at this
    exact this
  have hm0 : 0 ≤ rne (b.minDelay : ℚ) := rne_nonneg hminq
  have hm63 : rne (b.minDelay : ℚ) ≤ 2 ^ 63 := by
    have := rne_monotone hmin63q
    rwa [two_pow_eq_rne] at this
  have h63 : (2 : ℚ) ^ 63 < 2 ^ 1023 := by norm_num
  have h63' : (2 : ℚ) ^ 63 < 2 ^ 1024 := by norm_num
  have hm : float64 (b.minDelay : ℚ) = Float64.finite (rne b.minDelay) :=
    float64_finite hminq (by linarith)
  have hjle : rand * rne (b.minDelay : ℚ) ≤ rne b.minDelay := by nlinarith
  have hj : float64 (rand * rne (b.minDelay : ℚ))
      = Float64.finite (rne (rand * rne b.minDelay)) :=
    float64_finite (mul_nonneg hr0 hm0) (by linarith)
  have hj0 : 0 ≤ rne (rand * rne (b.minDelay : ℚ)) := rne_nonneg (mul_nonneg hr0 hm0)
  have hB0 : 0 ≤ rne (rne (b.minDelay : ℚ) * p) := rne_nonneg (mul_nonneg hm0 hp0)
  have hBle : rne (rne (b.minDelay : ℚ) * p)
      ≤ rne (rne (rne (b.minDelay : ℚ) * p) + rne (rand * rne b.minDelay)) := by
    have := rne_monotone (show rne (rne (b.minDelay : ℚ) * p)
      ≤ rne (rne (b.minDelay : ℚ) * p) + rne (rand * rne b.minDelay) by linarith)
    rwa [rne_rne] at this
  have hB : float64 (rne (b.minDelay : ℚ) * p)
      = Float64.finite (rne (rne b.minDelay * p)) := by
    have : |rne (rne (b.minDelay : ℚ) * p)| < 2 ^ 1024 := by
      rw [abs_of_nonneg hB0]
      linarith
    simp [float64, this]
  have hs0 : 0 ≤ rne (rne (rne (b.minDelay : ℚ) * p) + rne (rand * rne b.minDelay)) :=
    hB0.trans hBle
  have hs : float64 (rne (rne (b.minDelay : ℚ) * p) + rne (rand * rne b.minDelay))
      = Float64.finite (rne (rne (rne (b.minDelay : ℚ) * p)
          + rne (rand * rne b.minDelay))) := by
    have : |rne (rne (rne (b.minDelay : ℚ) * p) + rne (rand * rne b.minDelay))|
        < 2 ^ 1024 := by
      rw [abs_of_nonneg hs0]
      linarith
    simp [float64, this]
  rw [next_eq_of_finite pow b rand attempt ha hm hp hB hj hs, toInt64_finite hs0 hrange]
  split_ifs with h1 h2 h2
  · omega
  · rfl
  · rfl
  · omega

/-- C4 fails at `minDelay = 100ms`, `maxDelay = 2s`, `attempt = 64`: the sum exceeds the
`int64` range, the conversion gives `-2^63`, and `next` returns it, below `minDelay`. Of
`math.Pow` only `Pow(1.5, 64) ≥ 2^37` is used. -/
theorem backoff_next_below_minDelay :
    (⟨100000000, 2000000000⟩ : backoff).next powCR (1 / 2) 64 = -9223372036854775808
    ∧ ¬ ((⟨100000000, 2000000000⟩ : backoff).minDelay
          ≤ (⟨100000000, 2000000000⟩ : backoff).next powCR (1 / 2) 64) := by
  have h := next_of_base_atLeast powCR ⟨100000000, 2000000000⟩ (1 / 2) 64 (by norm_num)
    (by norm_num) (by norm_num) (by norm_num)
    (base_powCR_atLeast _ 64 (by norm_num) (by norm_num) (by norm_num))
  rw [h]
  norm_num

/-- C5: for every backoff and every negative attempt, `next` returns exactly `minDelay`,
whatever `math.Pow`, the random draw and `maxDelay` are. -/
theorem backoff_next_negative_attempt (pow : Float64 → Float64 → Float64) (b : backoff)
    (rand : ℚ) (attempt : ℤ) (h : attempt < 0) :
    b.next pow rand attempt = b.minDelay := by
  simp [backoff.next, h]

/-- C5 at `minDelay = 100ms`, `maxDelay = 2s`: `next(-1) = 100ms`. -/
theorem backoff_next_negative_attempt_witness :
    (-1 : ℤ) < 0 ∧ (⟨100000000, 2000000000⟩ : backoff).next powCR (1 / 2) (-1) = 100000000 :=
  ⟨by decide, backoff_next_negative_attempt powCR ⟨100000000, 2000000000⟩ (1 / 2) (-1)
    (by decide)⟩

/-- C6, amended: for `0 ≤ minDelay`, an attempt `≥ 0` at which `math.Pow` returns a finite
`p ≥ 0`, and a draw in `[0, 1)`, as long as the `float64` sum
`float64(minDelay) × p + rand × float64(minDelay)`, each operation rounded to `float64`,
is below `2^63`: `next` returns that sum truncated to a whole duration when this is at most
`maxDelay`, and `maxDelay` otherwise. With `minDelay = 100ms` and `maxDelay = 2s`,
`next(10) = 2s` for every draw. -/
theorem backoff_next_formula (pow : Float64 → Float64 → Float64) (b : backoff) (rand : ℚ)
    (attempt : ℤ) (p : ℚ) (ha : 0 ≤ attempt) (hmin : 0 ≤ b.minDelay)
    (hmin63 : b.minDelay < 2 ^ 63)
    (hp : pow (Float64.finite (3 / 2)) (float64 (attempt : ℚ)) = Float64.finite p)
    (hp0 : 0 ≤ p) (hr0 : 0 ≤ rand) (hr1 : rand < 1)
    (hrange : rne (rne (rne b.minDelay * p) + rne (rand * rne b.minDelay)) < 2 ^ 63) :
    b.next pow rand attempt
        = (if ⌊rne (rne (rne b.minDelay * p) + rne (rand * rne b.minDelay))⌋ ≤ b.maxDelay
            then ⌊rne (rne (rne b.minDelay * p) + rne (rand * rne b.minDelay))⌋
            else b.maxDelay)
    ∧ ∀ r : ℚ, 0 ≤ r → r < 1 →
        (⟨100000000, 2000000000⟩ : backoff).next powCR r 10 = 2000000000 :=
  ⟨next_eq_clamp pow b rand attempt p ha hmin hmin63 hp hp0 hr0 hr1 hrange,
    next_powCR_ten⟩

/-- C6 at `minDelay = 100ms`, `maxDelay = 2s`, attempt 0 and the draw `1/2`, where
`math.Pow` returns 1: the rounded sum is `1.5 × 10^8` and the delay is 150ms. -/
theorem backoff_next_formula_witness :
    rne (rne (rne ((100000000 : ℤ) : ℚ) * 1) + rne (1 / 2 * rne ((100000000 : ℤ) : ℚ)))
        = 150000000
    ∧ (⟨100000000, 2000000000⟩ : backoff).next powCR (1 / 2) 0
        = (if ⌊rne (rne (rne ((100000000 : ℤ) : ℚ) * 1)
                + rne (1 / 2 * rne ((100000000 : ℤ) : ℚ)))⌋ ≤ 2000000000
            then ⌊rne (rne (rne ((100000000 : ℤ) : ℚ) * 1)
                + rne (1 / 2 * rne ((100000000 : ℤ) : ℚ)))⌋
            else 2000000000)
    ∧ (⟨100000000, 2000000000⟩ : backoff).next powCR (1 / 2) 10 = 2000000000 := by
  have hz : float64 ((0 : ℤ) : ℚ) = Float64.finite 0 := by
    simpa using float64_intCast (le_refl 0) (by norm_num)
  have hr0 : rne ((100000000 : ℤ) : ℚ) = 100000000 := by
    simpa using rne_intCast (n := 100000000) (by norm_num)
  have hr1 : rne ((100000000 : ℚ) * 1) = 100000000 := by
    have := rne_intCast (n := 100000000) (by norm_num)
    norm_num at this ⊢
    exact this
  have hr2 : rne (1 / 2 * (100000000 : ℚ)) = 50000000 := by
    have := rne_intCast (n := 50000000) (by norm_num)
    norm_num at this ⊢
    exact this
  have hr3 : rne ((100000000 : ℚ) + 50000000) = 150000000 := by
    have := rne_intCast (n := 150000000) (by norm_num)
    norm_num at this ⊢
    exact this
  have hsum : rne (rne (rne ((100000000 : ℤ) : ℚ) * 1)
      + rne (1 / 2 * rne ((100000000 : ℤ) : ℚ))) = 150000000 := by
    rw [hr0, hr1, hr2, hr3]
  have h := backoff_next_formula powCR ⟨100000000, 2000000000⟩ (1 / 2) 0 1 (le_refl 0)
    (by norm_num) (by norm_num) (by rw [hz]; exact powCR_zero _) (by norm_num)
    (by norm_num) (by norm_num)
    (by
      show rne (rne (rne ((100000000 : ℤ) : ℚ) * 1)
        + rne (1 / 2 * rne ((100000000 : ℤ) : ℚ))) < 2 ^ 63
      rw [hsum]
      norm_num)
  exact ⟨hsum, h.1, h.2 (1 / 2) (by norm_num) (by norm_num)⟩

/-- C6, as stated, fails at `minDelay = 100ms`, `maxDelay = 2s`, attempt 1 and the largest
draw `1 - 2^-53`: the exact sum `1.5 × 10^8 + rand × 10^8` truncates to `249999999`, which
is below `maxDelay`, while the `float64` sum rounds to `2.5 × 10^8` and `next` returns
`250000000`. -/
theorem backoff_next_formula_counterexample :
    ⌊(100000000 : ℚ) * (3 / 2) ^ 1 + (1 - 1 / 2 ^ 53) * 100000000⌋ = 249999999
    ∧ (⟨100000000, 2000000000⟩ : backoff).next powCR (1 - 1 / 2 ^ 53) 1 = 250000000
    ∧ (⟨100000000, 2000000000⟩ : backoff).next powCR (1 - 1 / 2 ^ 53) 1
        ≠ ⌊(100000000 : ℚ) * (3 / 2) ^ 1 + (1 - 1 / 2 ^ 53) * 100000000⌋ := by
  have key :
      ⌊(100000000 : ℚ) * (3 / 2) ^ 1 + (1 - 1 / 2 ^ 53) * 100000000⌋ = 249999999
      ∧ (⟨100000000, 2000000000⟩ : backoff).next powCR (1 - 1 / 2 ^ 53) 1 = 250000000 := by
    constructor
    · rw [Int.floor_eq_iff]
      norm_num
    · have hm : float64 (((⟨100000000, 2000000000⟩ : backoff).minDelay : ℤ) : ℚ)
          = Float64.finite 100000000 := by
        simpa using float64_intCast (n := 100000000) (by norm_num) (by norm_num)
      have hp : powCR (Float64.finite (3 / 2)) (float64 ((1 : ℤ) : ℚ))
          = Float64.finite (3 / 2) := by
        rw [powCR_intCast _ (by norm_num) (by norm_num), zpow_one]
        exact float64_of_repr 3 (-1) (by norm_num) (by norm_num) (by norm_num) (by norm_num)
          (by norm_num)
      have hB : float64 ((100000000 : ℚ) * (3 / 2)) = Float64.finite 150000000 := by
        have := float64_intCast (n := 150000000) (by norm_num) (by norm_num)
        norm_num at this ⊢
        exact this
      have hs : float64 ((150000000 : ℚ) + 6710886399999999 / 67108864)
          = Float64.finite 250000000 := by
        have htie : roundHalfEven (((150000000 : ℚ) + 6710886399999999 / 67108864)
            / 2 ^ ((27 : ℤ) - 52)) = 8388608000000000 := by
          have : ((150000000 : ℚ) + 6710886399999999 / 67108864) / 2 ^ ((27 : ℤ) - 52)
              = ((8388607999999999 : ℤ) : ℚ) + 1 / 2 := by norm_num
          rw [this, roundHalfEven_tie]
          decide
        have := float64_eq_of_round (q := (150000000 : ℚ) + 6710886399999999 / 67108864) 27
          8388608000000000 (by norm_num) (by norm_num) (by norm_num) (by norm_num) htie
        rw [this]
        norm_num
      have hnext := next_eq_of_finite powCR ⟨100000000, 2000000000⟩ (1 - 1 / 2 ^ 53) 1
        (by norm_num) hm hp hB float64_largest_draw_jitter hs
      have hconv : (Float64.finite 250000000).toInt64 = 250000000 :=
        toInt64_finite_eq 250000000 (by norm_num) (by norm_num) (by norm_num)
      rw [hnext, hconv]
      decide
  refine ⟨key.1, key.2, ?_⟩
  rw [key.1, key.2]
  decide

/-- C8, amended: for `0 ≤ minDelay`, an attempt `≥ 0` whose delay before jitter `base`, the
`float64` product `float64(minDelay) × Pow(1.5, attempt)`, is finite and non-negative, with
`top`, the `float64` sum of `base` and `float64(minDelay)`, below `2^63`, and any two draws
in `[0, 1)`: both results are at least the smaller of `maxDelay` and `base` truncated to a
whole duration and at most the smaller of `maxDelay` and `top` truncated, so they differ by
at most the distance between these two bounds, and they differ by at most `minDelay`
whenever `top ≤ base + minDelay` or `base` truncated is at least `maxDelay`. -/
theorem backoff_next_jitter_window (pow : Float64 → Float64 → Float64) (b : backoff)
    (r₁ r₂ : ℚ) (attempt : ℤ) (B : ℚ) (ha : 0 ≤ attempt) (hmin : 0 ≤ b.minDelay)
    (hbase : b.base pow attempt = Float64.finite B) (hB0 : 0 ≤ B)
    (hrange : rne (B + rne b.minDelay) < 2 ^ 63)
    (h₁ : 0 ≤ r₁ ∧ r₁ < 1) (h₂ : 0 ≤ r₂ ∧ r₂ < 1) :
    (min ⌊B⌋ b.maxDelay ≤ b.next pow r₁ attempt
      ∧ b.next pow r₁ attempt ≤ min ⌊rne (B + rne b.minDelay)⌋ b.maxDelay)
    ∧ (min ⌊B⌋ b.maxDelay ≤ b.next pow r₂ attempt
      ∧ b.next pow r₂ attempt ≤ min ⌊rne (B + rne b.minDelay)⌋ b.maxDelay)
    ∧ |b.next pow r₁ attempt - b.next pow r₂ attempt|
        ≤ min ⌊rne (B + rne b.minDelay)⌋ b.maxDelay - min ⌊B⌋ b.maxDelay
    ∧ (rne (B + rne b.minDelay) ≤ B + b.minDelay ∨ b.maxDelay ≤ ⌊B⌋ →
        |b.next pow r₁ attempt - b.next pow r₂ attempt| ≤ b.minDelay) := by
  have w₁ := next_window pow b r₁ attempt B ha hmin hbase hB0 hrange h₁.1 h₁.2
  have w₂ := next_window pow b r₂ attempt B ha hmin hbase hB0 hrange h₂.1 h₂.2
  have hd : |b.next pow r₁ attempt - b.next pow r₂ attempt|
      ≤ min ⌊rne (B + rne b.minDelay)⌋ b.maxDelay - min ⌊B⌋ b.maxDelay := by
    rw [abs_le]
    constructor <;> linarith [w₁.1, w₁.2, w₂.1, w₂.2]
  refine ⟨w₁, w₂, hd, fun hc => hd.trans ?_⟩
  rcases hc with hc | hc
  · have hfl : ⌊rne (B + rne (b.minDelay : ℚ))⌋ ≤ ⌊B⌋ + b.minDelay := by
      have := Int.floor_mono hc
      rwa [Int.floor_add_int] at this
    rcases le_total ⌊B⌋ b.maxDelay with h | h
    · rw [min_eq_left h]
      have := min_le_left ⌊rne (B + rne (b.minDelay : ℚ))⌋ b.maxDelay
      omega
    · rw [min_eq_right h]
      have := min_le_right ⌊rne (B + rne (b.minDelay : ℚ))⌋ b.maxDelay
      omega
  · rw [min_eq_right hc]
    have := min_le_right ⌊rne (B + rne (b.minDelay : ℚ))⌋ b.maxDelay
    omega

/-- C8 at `minDelay = 100ms`, `maxDelay = 2s` and the draws `0` and `1/2`: at attempt 3 the
delay before jitter is `337.5ms` and `top` is `437.5ms`; at attempt 10 the delay before
jitter, `5766503906.25 ns`, is above `maxDelay`. -/
theorem backoff_next_jitter_window_witness :
    (⟨100000000, 2000000000⟩ : backoff).base powCR 3 = Float64.finite 337500000
    ∧ min ⌊(337500000 : ℚ)⌋ 2000000000
        ≤ (⟨100000000, 2000000000⟩ : backoff).next powCR 0 3
    ∧ min ⌊(337500000 : ℚ)⌋ 2000000000
        ≤ (⟨100000000, 2000000000⟩ : backoff).next powCR (1 / 2) 3
    ∧ |(⟨100000000, 2000000000⟩ : backoff).next powCR 0 3
        - (⟨100000000, 2000000000⟩ : backoff).next powCR (1 / 2) 3| ≤ 100000000
    ∧ (⟨100000000, 2000000000⟩ : backoff).base powCR 10 = Float64.finite (23066015625 / 4)
    ∧ min ⌊(23066015625 / 4 : ℚ)⌋ 2000000000
        ≤ (⟨100000000, 2000000000⟩ : backoff).next powCR 0 10
    ∧ |(⟨100000000, 2000000000⟩ : backoff).next powCR 0 10
        - (⟨100000000, 2000000000⟩ : backoff).next powCR (1 / 2) 10| ≤ 100000000 := by
  have hbase : (⟨100000000, 2000000000⟩ : backoff).base powCR 3
      = Float64.finite 337500000 := by
    have hm : float64 ((100000000 : ℤ) : ℚ) = Float64.finite ((100000000 : ℤ) : ℚ) :=
      float64_intCast (by norm_num) (by norm_num)
    have h3 : float64 ((3 : ℤ) : ℚ) = Float64.finite ((3 : ℤ) : ℚ) :=
      float64_intCast (by norm_num) (by norm_num)
    have hp : float64 ((3 / 2 : ℚ) ^ (3 : ℤ)) = Float64.finite ((3 / 2 : ℚ) ^ (3 : ℤ)) :=
      float64_of_repr 27 (-3) (by norm_num) (by norm_num) (by norm_num) (by norm_num)
        (by norm_num)
    have hB : float64 (((100000000 : ℤ) : ℚ) * (3 / 2 : ℚ) ^ (3 : ℤ))
        = Float64.finite 337500000 := by
      have := float64_intCast (n := 337500000) (by norm_num) (by norm_num)
      norm_num at this ⊢
      exact this
    simp only [backoff.base]
    rw [hm, h3]
    simp only [powCR, Int.floor_intCast]
    rw [hp]
    simp only [Float64.mul]
    exact hB
  have hT : rne ((337500000 : ℚ)
      + rne (((⟨100000000, 2000000000⟩ : backoff).minDelay : ℤ) : ℚ)) = 437500000 := by
    have h1 : rne (((100000000 : ℤ) : ℚ)) = ((100000000 : ℤ) : ℚ) :=
      rne_intCast (by norm_num)
    have h2 := rne_intCast (n := 437500000) (by norm_num)
    simp only []
    rw [h1]
    norm_num at h2 ⊢
    exact h2
  have w3 := backoff_next_jitter_window powCR ⟨100000000, 2000000000⟩ 0 (1 / 2) 3
    337500000 (by norm_num) (by norm_num) hbase (by norm_num)
    (by rw [hT]; norm_num) (by norm_num) (by norm_num)
  have w10 := backoff_next_jitter_window powCR ⟨100000000, 2000000000⟩ 0 (1 / 2) 10
    (23066015625 / 4) (by norm_num) (by norm_num) base_powCR_ten (by norm_num)
    (by rw [window_top_ten]; norm_num) (by norm_num) (by norm_num)
  refine ⟨hbase, w3.1.1, w3.2.1.1, w3.2.2.2 (Or.inl ?_), base_powCR_ten, w10.1.1,
    w10.2.2.2 (Or.inr ?_)⟩
  · rw [hT]
    norm_num
  · rw [Int.le_floor]
    norm_num

/-- C8, as stated, fails. With `minDelay = 100ms`, `maxDelay = 2s` and attempt 10 the
delay before jitter is `5766503906.25 ns` and `next` returns `maxDelay = 2s`, below it.
With `minDelay = 1ns`, `maxDelay = 10ns` and attempt 1 the delay before jitter is `1.5 ns`;
the draw `0` gives `1ns`, below it, and the draw `1/2` gives `2ns`, so the two results
differ by `minDelay`, not by less. With `minDelay = 2^53 + 3 ns`, `maxDelay = 2^56 ns` and
attempt 0, `float64(minDelay)` is `2^53 + 4`; the draw `0` gives `2^53 + 4` and the draw
`1 - 2^-53` gives `2^54 + 8`, so the two results differ by more than `minDelay`. -/
theorem backoff_next_jitter_counterexample :
    (⟨100000000, 2000000000⟩ : backoff).base powCR 10 = Float64.finite (23066015625 / 4)
    ∧ (⟨100000000, 2000000000⟩ : backoff).next powCR 0 10 = 2000000000
    ∧ (⟨1, 10⟩ : backoff).base powCR 1 = Float64.finite (3 / 2)
    ∧ (⟨1, 10⟩ : backoff).next powCR 0 1 = 1
    ∧ (⟨1, 10⟩ : backoff).next powCR (1 / 2) 1 = 2
    ∧ (((⟨100000000, 2000000000⟩ : backoff).next powCR 0 10 : ℤ) : ℚ) < 23066015625 / 4
    ∧ (((⟨1, 10⟩ : backoff).next powCR 0 1 : ℤ) : ℚ) < 3 / 2
    ∧ ¬ (|(⟨1, 10⟩ : backoff).next powCR 0 1 - (⟨1, 10⟩ : backoff).next powCR (1 / 2) 1|
          < (⟨1, 10⟩ : backoff).minDelay)
    ∧ (⟨9007199254740995, 72057594037927936⟩ : backoff).base powCR 0
        = Float64.finite 9007199254740996
    ∧ (⟨9007199254740995, 72057594037927936⟩ : backoff).next powCR 0 0 = 9007199254740996
    ∧ (⟨9007199254740995, 72057594037927936⟩ : backoff).next powCR (1 - 1 / 2 ^ 53) 0
        = 18014398509481992
    ∧ ¬ (|(⟨9007199254740995, 72057594037927936⟩ : backoff).next powCR 0 0
          - (⟨9007199254740995, 72057594037927936⟩ : backoff).next powCR (1 - 1 / 2 ^ 53) 0|
          ≤ (⟨9007199254740995, 72057594037927936⟩ : backoff).minDelay) := by
  have key :
      (⟨100000000, 2000000000⟩ : backoff).base powCR 10 = Float64.finite (23066015625 / 4)
      ∧ (⟨100000000, 2000000000⟩ : backoff).next powCR 0 10 = 2000000000
      ∧ (⟨1, 10⟩ : backoff).base powCR 1 = Float64.finite (3 / 2)
      ∧ (⟨1, 10⟩ : backoff).next powCR 0 1 = 1
      ∧ (⟨1, 10⟩ : backoff).next powCR (1 / 2) 1 = 2 := by
    have hz : float64 (0 : ℚ) = Float64.finite 0 := by
      simpa using float64_intCast (le_refl 0) (by norm_num)
    -- minDelay = 1ns, attempt 1
    have hm1 : float64 ((1 : ℤ) : ℚ) = Float64.finite 1 := by
      simpa using float64_intCast (n := 1) (by norm_num) (by norm_num)
    have h32 : float64 (3 / 2 : ℚ) = Float64.finite (3 / 2) :=
      float64_of_repr 3 (-1) (by norm_num) (by norm_num) (by norm_num) (by norm_num)
        (by norm_num)
    have hp1 : powCR (Float64.finite (3 / 2)) (float64 ((1 : ℤ) : ℚ))
        = Float64.finite (3 / 2) := by
      rw [powCR_intCast _ (by norm_num) (by norm_num), zpow_one]
      exact h32
    have hB1 : float64 ((1 : ℚ) * (3 / 2)) = Float64.finite (3 / 2) := by
      rw [one_mul]; exact h32
    have hj0 : float64 ((0 : ℚ) * 1) = Float64.finite 0 := by
      rw [zero_mul]; exact hz
    have hs0 : float64 ((3 / 2 : ℚ) + 0) = Float64.finite (3 / 2) := by
      rw [add_zero]; exact h32
    have hjh : float64 ((1 / 2 : ℚ) * 1) = Float64.finite (1 / 2) := by
      rw [mul_one]
      exact float64_of_repr 1 (-1) (by norm_num) (by norm_num) (by norm_num) (by norm_num)
        (by norm_num)
    have hsh : float64 ((3 / 2 : ℚ) + 1 / 2) = Float64.finite 2 := by
      have := float64_intCast (n := 2) (by norm_num) (by norm_num)
      norm_num at this ⊢
      exact this
    have hc0 : (Float64.finite (3 / 2)).toInt64 = 1 :=
      toInt64_finite_eq 1 (by norm_num) (by norm_num) (by norm_num)
    have hch : (Float64.finite 2).toInt64 = 2 :=
      toInt64_finite_eq 2 (by norm_num) (by norm_num) (by norm_num)
    have hn0 := next_eq_of_finite powCR ⟨1, 10⟩ 0 1 (by norm_num) hm1 hp1 hB1 hj0 hs0
    have hnh := next_eq_of_finite powCR ⟨1, 10⟩ (1 / 2) 1 (by norm_num) hm1 hp1 hB1 hjh hsh
    refine ⟨?_, ?_, ?_, ?_, ?_⟩
    · exact base_powCR_ten
    · exact next_powCR_ten 0 le_rfl (by norm_num)
    · simp only [backoff.base]
      rw [hp1, hm1]
      simp only [Float64.mul]
      exact hB1
    · rw [hn0, hc0]
      decide
    · rw [hnh, hch]
      decide
  obtain ⟨k1, k2, k3, k4, k5⟩ := key
  obtain ⟨m1, m2, m3⟩ := next_rounded_minDelay
  refine ⟨k1, k2, k3, k4, k5, ?_, ?_, ?_, m1, m2, m3, ?_⟩
  · rw [k2]
    norm_num
  · rw [k4]
    norm_num
  · rw [k4, k5]
    decide
  · rw [m2, m3]
    decide

/-- Overflow of the conversion, with `math.Pow` the rounded power: for `minDelay ≥ 2^26 ns`
(67ms), every attempt from 64 to `2^53` and every draw `≥ 0`, the delay before jitter is at
least `2^63` and `next` returns `-2^63`, whatever `maxDelay` is. -/
theorem backoff_next_overflow (b : backoff) (rand : ℚ) (attempt : ℤ)
    (hmin : 2 ^ 26 ≤ b.minDelay) (hmax : -2 ^ 63 ≤ b.maxDelay) (ha : 64 ≤ attempt)
    (ha' : attempt ≤ 2 ^ 53) (hr : 0 ≤ rand) :
    b.next powCR rand attempt = -2 ^ 63 :=
  next_of_base_atLeast powCR b rand attempt (by omega) hr (by omega) hmax
    (base_powCR_atLeast b attempt hmin ha ha')

/-- Overflow at `minDelay = 100ms`, `maxDelay = 2s`, attempt 100 and the draw 0: `next`
returns `-2^63`, not `maxDelay`. -/
theorem backoff_next_overflow_witness :
    (64 : ℤ) ≤ 100
    ∧ (⟨100000000, 2000000000⟩ : backoff).next powCR 0 100 = -2 ^ 63 :=
  ⟨by decide, backoff_next_overflow ⟨100000000, 2000000000⟩ 0 100 (by norm_num)
    (by norm_num) (by norm_num) (by norm_num) (by norm_num)⟩

/-- Within the range of `int64` the delay is between `minDelay` and `maxDelay`: for
`0 ≤ minDelay ≤ maxDelay`, `minDelay ≤ 2^53 ns`, an attempt `≥ 0` at which `math.Pow`
returns a finite `p ≥ 1`, and a draw in `[0, 1)`, as long as the rounded sum is below
`2^63`. -/
theorem backoff_next_in_range (pow : Float64 → Float64 → Float64) (b : backoff) (rand : ℚ)
    (attempt : ℤ) (p : ℚ) (ha : 0 ≤ attempt) (hmin : 0 ≤ b.minDelay)
    (hrep : b.minDelay ≤ 2 ^ 53) (hmm : b.minDelay ≤ b.maxDelay)
    (hp : pow (Float64.finite (3 / 2)) (float64 (attempt : ℚ)) = Float64.finite p)
    (hp1 : 1 ≤ p) (hr0 : 0 ≤ rand) (hr1 : rand < 1)
    (hrange : rne (rne (b.minDelay * p) + rne (rand * b.minDelay)) < 2 ^ 63) :
    b.minDelay ≤ b.next pow rand attempt ∧ b.next pow rand attempt ≤ b.maxDelay := by
  have hminq : (0 : ℚ) ≤ (b.minDelay : ℚ) := by exact_mod_cast hmin
  have hrm : rne (b.minDelay : ℚ) = b.minDelay :=
    rne_intCast (by rw [abs_of_nonneg hmin]; exact hrep)
  have hB : (b.minDelay : ℚ) ≤ rne (b.minDelay * p) := by
    have := rne_monotone (show (b.minDelay : ℚ) ≤ b.minDelay * p by nlinarith)
    rwa [hrm] at this
  have hj0 : 0 ≤ rne (rand * (b.minDelay : ℚ)) := rne_nonneg (by positivity)
  have hs : (b.minDelay : ℚ) ≤ rne (rne (b.minDelay * p) + rne (rand * b.minDelay)) := by
    have := rne_monotone
      (show (b.minDelay : ℚ) ≤ rne (b.minDelay * p) + rne (rand * b.minDelay) by linarith)
    rwa [hrm] at this
  have hfl : b.minDelay ≤ ⌊rne (rne (b.minDelay * p) + rne (rand * b.minDelay))⌋ :=
    Int.le_floor.2 hs
  rw [next_eq_clamp pow b rand attempt p ha hmin
    (lt_of_le_of_lt hrep (by norm_num)) hp (by linarith) hr0 hr1 (by rw [hrm]; exact hrange),
    hrm]
  split_ifs with h
  · exact ⟨hfl, h⟩
  · exact ⟨hmm, le_rfl⟩

/-- The bounds at `minDelay = 100ms`, `maxDelay = 2s`, attempt 0 and the draw `1/2`. -/
theorem backoff_next_in_range_witness :
    (100000000 : ℤ) ≤ 2000000000
    ∧ (100000000 : ℤ) ≤ (⟨100000000, 2000000000⟩ : backoff).next powCR (1 / 2) 0
    ∧ (⟨100000000, 2000000000⟩ : backoff).next powCR (1 / 2) 0 ≤ 2000000000 := by
  have hz : float64 ((0 : ℤ) : ℚ) = Float64.finite 0 := by
    simpa using float64_intCast (le_refl 0) (by norm_num)
  have hr1 : rne (((100000000 : ℤ) : ℚ) * 1) = 100000000 := by
    have := rne_intCast (n := 100000000) (by norm_num)
    norm_num at this ⊢
    exact this
  have hr2 : rne (1 / 2 * ((100000000 : ℤ) : ℚ)) = 50000000 := by
    have := rne_intCast (n := 50000000) (by norm_num)
    norm_num at this ⊢
    exact this
  have hr3 : rne ((100000000 : ℚ) + 50000000) = 150000000 := by
    have := rne_intCast (n := 150000000) (by norm_num)
    norm_num at this ⊢
    exact this
  exact ⟨by decide,
    backoff_next_in_range powCR ⟨100000000, 2000000000⟩ (1 / 2) 0 1 (le_refl 0)
      (by norm_num) (by norm_num) (by norm_num) (by rw [hz]; exact powCR_zero _)
      (by norm_num) (by norm_num) (by norm_num)
      (by
        show rne (rne (((100000000 : ℤ) : ℚ) * 1) + rne (1 / 2 * ((100000000 : ℤ) : ℚ)))
          < 2 ^ 63
        rw [hr1, hr2, hr3]
        norm_num)⟩

/-! ## Theorems: response headers -/

/-- Setting a header through the callback has the effect `SetsHeader` describes. -/
theorem setsHeader_set (key value : String) :
    SetsHeader key value (fun w =>
      match w with
      | Writer.http hw => Writer.http { hw with header := hw.header.Set key value }
      | Writer.other written => Writer.other written) := by
  refine ⟨fun _ => rfl, fun w => ⟨{ w with header := w.header.Set key value }, rfl, ?_, ?_, ?_, rfl⟩⟩
  · simp [Header.Set]
  · simp [Header.Get, Header.Set]
  · intro k hk
    simp [Header.Set, hk]

/-- C11: each of the four metadata setters hands `f` one callback, whatever `f` is. On a
sink that is not an `http.ResponseWriter` the callback changes nothing; on one that is, the
named header holds exactly the given value afterwards (`application/json; charset=utf-8`
under `Content-Type` for the last setter) and every other header and the status code are
unchanged. -/
theorem setRPCHeader_sets (X_RPC_ID X_RPC_Handler X_RPC_ERROR value : String) :
    (∀ (σ : Type) (f : (Writer → Writer) → σ → σ),
        setRPCHeaderID X_RPC_ID f value = f (setRPCHeaderID X_RPC_ID handSink value)
        ∧ setRPCHeaderHandler X_RPC_Handler f value
            = f (setRPCHeaderHandler X_RPC_Handler handSink value)
        ∧ setRPCHeaderError X_RPC_ERROR f value
            = f (setRPCHeaderError X_RPC_ERROR handSink value)
        ∧ setRPCHeaderContentType f = f (setRPCHeaderContentType handSink))
    ∧ SetsHeader X_RPC_ID value (setRPCHeaderID X_RPC_ID handSink value)
    ∧ SetsHeader X_RPC_Handler value (setRPCHeaderHandler X_RPC_Handler handSink value)
    ∧ SetsHeader X_RPC_ERROR value (setRPCHeaderError X_RPC_ERROR handSink value)
    ∧ SetsHeader "Content-Type" "application/json; charset=utf-8"
        (setRPCHeaderContentType handSink) :=
  ⟨fun _ _ => ⟨rfl, rfl, rfl, rfl⟩, setsHeader_set _ _, setsHeader_set _ _,
    setsHeader_set _ _, setsHeader_set _ _⟩

/-- C11 with the header names of the specification, on a sink that holds a `Content-Type`
header and status 200, and on a sink that is not an `http.ResponseWriter`. -/
theorem setRPCHeader_sets_witness :
    (∃ w' : ResponseWriter,
      setRPCHeaderID "X-RPC-Id" handSink "42"
          (Writer.http ⟨Header.Set (fun _ => none) "Content-Type" "text/plain", some 200⟩)
        = Writer.http w'
      ∧ w'.header "X-Rpc-Id" = some ["42"]
      ∧ w'.header.Get "X-RPC-Id" = "42"
      ∧ w'.header "Content-Type" = some ["text/plain"]
      ∧ w'.status = some 200)
    ∧ setRPCHeaderID "X-RPC-Id" handSink "42" (Writer.other [1, 2]) = Writer.other [1, 2] := by
  obtain ⟨hother, hhttp⟩ := (setRPCHeader_sets "X-RPC-Id" "X-RPC-Handler" "X-RPC-Error" "42").2.1
  refine ⟨?_, hother _⟩
  obtain ⟨w', h1, h2, h3, h4, h5⟩ :=
    hhttp ⟨Header.Set (fun _ => none) "Content-Type" "text/plain", some 200⟩
  refine ⟨w', h1, ?_, h3, ?_, h5⟩
  · have : CanonicalMIMEHeaderKey "X-RPC-Id" = "X-Rpc-Id" := by decide
    rw [← this]
    exact h2
  · rw [h4 "Content-Type" (by decide)]
    have : CanonicalMIMEHeaderKey "Content-Type" = "Content-Type" := by decide
    simp [Header.Set, this]

/-- Two `Set` calls on different canonical keys commute. -/
theorem header_set_comm (h : Header) (k₁ v₁ k₂ v₂ : String)
    (hk : CanonicalMIMEHeaderKey k₁ ≠ CanonicalMIMEHeaderKey k₂) :
    (h.Set k₁ v₁).Set k₂ v₂ = (h.Set k₂ v₂).Set k₁ v₁ := by
  funext k
  simp only [Header.Set]
  by_cases h1 : k = CanonicalMIMEHeaderKey k₁ <;> by_cases h2 : k = CanonicalMIMEHeaderKey k₂
  · exact absurd (h1.symm.trans h2) hk
  · rw [if_neg h2, if_pos h1, if_pos h1]
  · rw [if_pos h2, if_neg h1, if_pos h2]
  · rw [if_neg h2, if_neg h1, if_neg h1, if_neg h2]

/-- A `Set` call repeated with the same key and value changes nothing more. -/
theorem header_set_idem (h : Header) (k v : String) : (h.Set k v).Set k v = h.Set k v := by
  funext x
  simp only [Header.Set]
  by_cases h1 : x = CanonicalMIMEHeaderKey k <;> simp [h1]

/-- C12: on a sink that is an `http.ResponseWriter`, with header names whose canonical
forms are pairwise different, each of the four metadata setters applied twice with the same
value leaves the state that applying it once leaves, and any two different setters leave
the same state in either order. -/
theorem setRPCHeader_idempotent_commute (X_RPC_ID X_RPC_Handler X_RPC_ERROR : String)
    (a b : String) (w : ResponseWriter)
    (h₁ : CanonicalMIMEHeaderKey X_RPC_ID ≠ CanonicalMIMEHeaderKey X_RPC_Handler)
    (h₂ : CanonicalMIMEHeaderKey X_RPC_ID ≠ CanonicalMIMEHeaderKey X_RPC_ERROR)
    (h₃ : CanonicalMIMEHeaderKey X_RPC_ID ≠ CanonicalMIMEHeaderKey "Content-Type")
    (h₄ : CanonicalMIMEHeaderKey X_RPC_Handler ≠ CanonicalMIMEHeaderKey X_RPC_ERROR)
    (h₅ : CanonicalMIMEHeaderKey X_RPC_Handler ≠ CanonicalMIMEHeaderKey "Content-Type")
    (h₆ : CanonicalMIMEHeaderKey X_RPC_ERROR ≠ CanonicalMIMEHeaderKey "Content-Type") :
    (setRPCHeaderID X_RPC_ID handSink a (setRPCHeaderID X_RPC_ID handSink a (Writer.http w))
        = setRPCHeaderID X_RPC_ID handSink a (Writer.http w)
      ∧ setRPCHeaderHandler X_RPC_Handler handSink a
          (setRPCHeaderHandler X_RPC_Handler handSink a (Writer.http w))
        = setRPCHeaderHandler X_RPC_Handler handSink a (Writer.http w)
      ∧ setRPCHeaderError X_RPC_ERROR handSink a
          (setRPCHeaderError X_RPC_ERROR handSink a (Writer.http w))
        = setRPCHeaderError X_RPC_ERROR handSink a (Writer.http w)
      ∧ setRPCHeaderContentType handSink (setRPCHeaderContentType handSink (Writer.http w))
        = setRPCHeaderContentType handSink (Writer.http w))
    ∧ (setRPCHeaderID X_RPC_ID handSink a
          (setRPCHeaderHandler X_RPC_Handler handSink b (Writer.http w))
        = setRPCHeaderHandler X_RPC_Handler handSink b
          (setRPCHeaderID X_RPC_ID handSink a (Writer.http w))
      ∧ setRPCHeaderID X_RPC_ID handSink a
          (setRPCHeaderError X_RPC_ERROR handSink b (Writer.http w))
        = setRPCHeaderError X_RPC_ERROR handSink b
          (setRPCHeaderID X_RPC_ID handSink a (Writer.http w))
      ∧ setRPCHeaderID X_RPC_ID handSink a (setRPCHeaderContentType handSink (Writer.http w))
        = setRPCHeaderContentType handSink
          (setRPCHeaderID X_RPC_ID handSink a (Writer.http w))
      ∧ setRPCHeaderHandler X_RPC_Handler handSink a
          (setRPCHeaderError X_RPC_ERROR handSink b (Writer.http w))
        = setRPCHeaderError X_RPC_ERROR handSink b
          (setRPCHeaderHandler X_RPC_Handler handSink a (Writer.http w))
      ∧ setRPCHeaderHandler X_RPC_Handler handSink a
          (setRPCHeaderContentType handSink (Writer.http w))
        = setRPCHeaderContentType handSink
          (setRPCHeaderHandler X_RPC_Handler handSink a (Writer.http w))
      ∧ setRPCHeaderError X_RPC_ERROR handSink a
          (setRPCHeaderContentType handSink (Writer.http w))
        = setRPCHeaderContentType handSink
          (setRPCHeaderError X_RPC_ERROR handSink a (Writer.http w))) := by
  simp only [setRPCHeaderID, setRPCHeaderHandler, setRPCHeaderError, setRPCHeaderContentType,
    responseWriter, handSink, header_set_idem]
  refine ⟨⟨trivial, trivial, trivial, trivial⟩, ?_, ?_, ?_, ?_, ?_, ?_⟩
  · rw [header_set_comm _ _ _ _ _ h₁.symm]
  · rw [header_set_comm _ _ _ _ _ h₂.symm]
  · rw [header_set_comm _ _ _ _ _ h₃.symm]
  · rw [header_set_comm _ _ _ _ _ h₄.symm]
  · rw [header_set_comm _ _ _ _ _ h₅.symm]
  · rw [header_set_comm _ _ _ _ _ h₆.symm]

/-- C12 with the header names of the specification, whose canonical forms differ, on a sink
with no headers: `setRPCHeaderID` twice is `setRPCHeaderID` once, and `setRPCHeaderID` and
`setRPCHeaderError` leave the same state in either order. -/
theorem setRPCHeader_idempotent_commute_witness :
    CanonicalMIMEHeaderKey "X-RPC-Id" ≠ CanonicalMIMEHeaderKey "X-RPC-Error"
    ∧ setRPCHeaderID "X-RPC-Id" handSink "42"
        (setRPCHeaderID "X-RPC-Id" handSink "42" (Writer.http ⟨fun _ => none, none⟩))
      = setRPCHeaderID "X-RPC-Id" handSink "42" (Writer.http ⟨fun _ => none, none⟩)
    ∧ setRPCHeaderID "X-RPC-Id" handSink "42"
        (setRPCHeaderError "X-RPC-Error" handSink "boom" (Writer.http ⟨fun _ => none, none⟩))
      = setRPCHeaderError "X-RPC-Error" handSink "boom"
        (setRPCHeaderID "X-RPC-Id" handSink "42" (Writer.http ⟨fun _ => none, none⟩)) := by
  have h := setRPCHeader_idempotent_commute "X-RPC-Id" "X-RPC-Handler" "X-RPC-Error" "42" "boom"
    ⟨fun _ => none, none⟩ (by decide) (by decide) (by decide) (by decide) (by decide)
    (by decide)
  exact ⟨by decide, h.1.1, h.2.2.1⟩

/-! ## Theorems: slices in memory -/

theorem heap_store_length (h : Heap) (s : Slice) (i : Nat) (x : Byte) :
    (h.store s i x).arrays.length = h.arrays.length := by
  unfold Heap.store
  split_ifs <;> simp

/-- A store through a slice leaves every other array as it is. -/
theorem heap_store_getD_of_ne (h : Heap) (s : Slice) (i : Nat) (x : Byte) (a : Nat)
    (ha : a ≠ s.addr) : (h.store s i x).arrays.getD a [] = h.arrays.getD a [] := by
  unfold Heap.store
  split_ifs
  · simp [List.getD_eq_getElem?_getD, List.getElem?_set, Ne.symm ha]
  · rfl

/-- Stores through slices of arrays below address `a` leave the array at `a` as it is. -/
theorem heap_stores_getD (ws : List (Slice × Nat × Byte)) (h : Heap) (a : Nat)
    (hws : ∀ w ∈ ws, w.1.addr < a) : (h.stores ws).arrays.getD a [] = h.arrays.getD a [] := by
  induction ws generalizing h with
  | nil => rfl
  | cons w ws ih =>
    have hw : w.1.addr < a := hws w (List.mem_cons_self _ _)
    have := ih (h.store w.1 w.2.1 w.2.2) (fun w' hw' => hws w' (List.mem_cons_of_mem _ hw'))
    simp only [Heap.stores, List.foldl_cons] at this ⊢
    rw [this, heap_store_getD_of_ne _ _ _ _ _ (by omega)]

/-- The bytes a valid slice holds are as many as its length. -/
theorem heap_read_length (h : Heap) (s : Slice) (hs : h.valid s) :
    (h.read s).length = s.len := by
  unfold Heap.read
  rw [List.length_take, List.length_drop]
  have := hs.2
  omega

/-- After `UnmarshalJSON` in the heap, `data` is a new array that holds the bytes of
`raw`. -/
theorem heap_unmarshalJSON_data {α : Type} (h : Heap) (p : Heap.param α) (raw : Slice)
    (hraw : h.valid raw) :
    (Heap.param.UnmarshalJSON h p raw).2.1.data = ⟨h.arrays.length, 0, raw.len⟩
    ∧ (Heap.param.UnmarshalJSON h p raw).1.arrays.getD h.arrays.length [] = h.read raw := by
  refine ⟨rfl, ?_⟩
  have hlen := heap_read_length h raw hraw
  have hne : raw.addr ≠ h.arrays.length := by have := hraw.1; omega
  have hr : (⟨h.arrays ++ [make raw.len]⟩ : Heap).read raw = h.read raw := by
    simp [Heap.read, List.getD_eq_getElem?_getD, List.getElem?_append_left hraw.1]
  have hd : (⟨h.arrays ++ [make raw.len]⟩ : Heap).read ⟨h.arrays.length, 0, raw.len⟩
      = make raw.len := by
    simp [Heap.read, List.getD_eq_getElem?_getD, make]
  simp only [Heap.param.UnmarshalJSON, Heap.make, Heap.copy]
  rw [hr, hd]
  have hc : copy (make raw.len) (h.read raw) = h.read raw := by
    have := copy_make (h.read raw)
    rwa [hlen] at this
  rw [hc]
  simp [List.getD_eq_getElem?_getD, make]

/-- C13, amended: after `UnmarshalJSON(b)` on a param, for a valid slice `b`, whatever is
then stored through slices of the arrays that existed at the time of the call (the caller's
buffer `b` among them), the param's `data` still holds the bytes `b` held at the call, and
therefore, on a param with no valid typed value set, so does the result of `MarshalJSON`. -/
theorem param_unmarshal_defensive_copy {α ε : Type}
    (marshal : Option α → List Byte × Option ε) (h : Heap) (p : Heap.param α) (b : Slice)
    (ws : List (Slice × Nat × Byte)) (hb : h.valid b)
    (hws : ∀ w ∈ ws, w.1.addr < h.arrays.length) :
    ((Heap.param.UnmarshalJSON h p b).1.stores ws).read (Heap.param.UnmarshalJSON h p b).2.1.data
        = h.read b
    ∧ (p.v = Value.zero →
        Jsonrpc.param.MarshalJSON marshal
            (Heap.param.load ((Heap.param.UnmarshalJSON h p b).1.stores ws)
              (Heap.param.UnmarshalJSON h p b).2.1)
          = (h.read b, none)) := by
  obtain ⟨hd, hg⟩ := heap_unmarshalJSON_data h p b hb
  have hread : ((Heap.param.UnmarshalJSON h p b).1.stores ws).read
      (Heap.param.UnmarshalJSON h p b).2.1.data = h.read b := by
    rw [hd]
    unfold Heap.read
    rw [heap_stores_getD ws _ _ hws, hg]
    simp only [List.drop_zero]
    have := heap_read_length h b hb
    rw [List.take_of_length_le (by unfold Heap.read at this ⊢; omega)]
    rfl
  refine ⟨hread, fun hv => ?_⟩
  have hv' : (Heap.param.UnmarshalJSON h p b).2.1.v = Value.zero := hv
  simp only [Jsonrpc.param.MarshalJSON, Heap.param.load, hv', hread]

/-- The heap version of `UnmarshalJSON` agrees with the one on byte sequences: the param
read back from the heap is the param `UnmarshalJSON` returns for the bytes of `raw`. -/
theorem heap_unmarshalJSON_refines {α : Type} (h : Heap) (p : Heap.param α) (raw : Slice)
    (hraw : h.valid raw) :
    Heap.param.load (Heap.param.UnmarshalJSON h p raw).1 (Heap.param.UnmarshalJSON h p raw).2.1
        = (Jsonrpc.param.UnmarshalJSON (Heap.param.load h p) (h.read raw)).1
    ∧ (Heap.param.UnmarshalJSON h p raw).2.2
        = (Jsonrpc.param.UnmarshalJSON (Heap.param.load h p) (h.read raw)).2 := by
  obtain ⟨hd, hg⟩ := heap_unmarshalJSON_data h p raw hraw
  have hlen := heap_read_length h raw hraw
  refine ⟨?_, rfl⟩
  have hread : (Heap.param.UnmarshalJSON h p raw).1.read
      (Heap.param.UnmarshalJSON h p raw).2.1.data = h.read raw := by
    rw [hd]
    unfold Heap.read
    rw [hg]
    simp only [List.drop_zero]
    rw [List.take_of_length_le (by unfold Heap.read at hlen ⊢; omega)]
    rfl
  have hv : (Heap.param.UnmarshalJSON h p raw).2.1.v = p.v := rfl
  simp only [Heap.param.load, Jsonrpc.param.UnmarshalJSON, hread, hv, copy_make]

/-- C13 on a heap with one array `[1, 2, 3, 4]`, the buffer `b` its two middle bytes: after
the call both bytes of `b` are overwritten with 9, and the param still holds `[2, 3]`. -/
theorem param_unmarshal_defensive_copy_witness :
    ((Heap.param.UnmarshalJSON ⟨[[1, 2, 3, 4]]⟩ (⟨⟨0, 0, 0⟩, Value.zero⟩ : Heap.param GoVal)
        ⟨0, 1, 2⟩).1.stores [(⟨0, 1, 2⟩, 0, 9), (⟨0, 1, 2⟩, 1, 9)]).read ⟨0, 1, 2⟩ = [9, 9]
    ∧ ((Heap.param.UnmarshalJSON ⟨[[1, 2, 3, 4]]⟩ (⟨⟨0, 0, 0⟩, Value.zero⟩ : Heap.param GoVal)
        ⟨0, 1, 2⟩).1.stores [(⟨0, 1, 2⟩, 0, 9), (⟨0, 1, 2⟩, 1, 9)]).read
          (Heap.param.UnmarshalJSON ⟨[[1, 2, 3, 4]]⟩
            (⟨⟨0, 0, 0⟩, Value.zero⟩ : Heap.param GoVal) ⟨0, 1, 2⟩).2.1.data = [2, 3]
    ∧ Jsonrpc.param.MarshalJSON jsonMarshal
        (Heap.param.load
          ((Heap.param.UnmarshalJSON ⟨[[1, 2, 3, 4]]⟩
            (⟨⟨0, 0, 0⟩, Value.zero⟩ : Heap.param GoVal) ⟨0, 1, 2⟩).1.stores
              [(⟨0, 1, 2⟩, 0, 9), (⟨0, 1, 2⟩, 1, 9)])
          (Heap.param.UnmarshalJSON ⟨[[1, 2, 3, 4]]⟩
            (⟨⟨0, 0, 0⟩, Value.zero⟩ : Heap.param GoVal) ⟨0, 1, 2⟩).2.1)
        = ([2, 3], none) := by
  have h := param_unmarshal_defensive_copy jsonMarshal ⟨[[1, 2, 3, 4]]⟩
    (⟨⟨0, 0, 0⟩, Value.zero⟩ : Heap.param GoVal) ⟨0, 1, 2⟩
    [(⟨0, 1, 2⟩, 0, 9), (⟨0, 1, 2⟩, 1, 9)] (by decide) (by decide)
  exact ⟨by decide, h.1, h.2 rfl⟩

/-- C13, as stated, fails on a param that holds a typed value. On a heap with one array
`[1, 2, 3, 4]`, the buffer `b` its two middle bytes, and a param whose typed value is
`true`: after `UnmarshalJSON(b)` and after both bytes of `b` are overwritten with 9, the
param still holds `[2, 3]`, but `MarshalJSON` returns the text `true`, not `[2, 3]`. -/
theorem param_unmarshal_defensive_copy_counterexample :
    (⟨[[1, 2, 3, 4]]⟩ : Heap).read ⟨0, 1, 2⟩ = [2, 3]
    ∧ ((Heap.param.UnmarshalJSON ⟨[[1, 2, 3, 4]]⟩
        (⟨⟨0, 0, 0⟩, Value.ValueOf (some (GoVal.bool true))⟩ : Heap.param GoVal)
        ⟨0, 1, 2⟩).1.stores [(⟨0, 1, 2⟩, 0, 9), (⟨0, 1, 2⟩, 1, 9)]).read
          (Heap.param.UnmarshalJSON ⟨[[1, 2, 3, 4]]⟩
            (⟨⟨0, 0, 0⟩, Value.ValueOf (some (GoVal.bool true))⟩ : Heap.param GoVal)
            ⟨0, 1, 2⟩).2.1.data = [2, 3]
    ∧ Jsonrpc.param.MarshalJSON jsonMarshal
        (Heap.param.load
          ((Heap.param.UnmarshalJSON ⟨[[1, 2, 3, 4]]⟩
            (⟨⟨0, 0, 0⟩, Value.ValueOf (some (GoVal.bool true))⟩ : Heap.param GoVal)
            ⟨0, 1, 2⟩).1.stores [(⟨0, 1, 2⟩, 0, 9), (⟨0, 1, 2⟩, 1, 9)])
          (Heap.param.UnmarshalJSON ⟨[[1, 2, 3, 4]]⟩
            (⟨⟨0, 0, 0⟩, Value.ValueOf (some (GoVal.bool true))⟩ : Heap.param GoVal)
            ⟨0, 1, 2⟩).2.1)
        = ([116, 114, 117, 101], none)
    ∧ Jsonrpc.param.MarshalJSON jsonMarshal
        (Heap.param.load
          ((Heap.param.UnmarshalJSON ⟨[[1, 2, 3, 4]]⟩
            (⟨⟨0, 0, 0⟩, Value.ValueOf (some (GoVal.bool true))⟩ : Heap.param GoVal)
            ⟨0, 1, 2⟩).1.stores [(⟨0, 1, 2⟩, 0, 9), (⟨0, 1, 2⟩, 1, 9)])
          (Heap.param.UnmarshalJSON ⟨[[1, 2, 3, 4]]⟩
            (⟨⟨0, 0, 0⟩, Value.ValueOf (some (GoVal.bool true))⟩ : Heap.param GoVal)
            ⟨0, 1, 2⟩).2.1)
        ≠ ((⟨[[1, 2, 3, 4]]⟩ : Heap).read ⟨0, 1, 2⟩, none) := by
  refine ⟨by decide, by decide, rfl, ?_⟩
  have h : Jsonrpc.param.MarshalJSON jsonMarshal
      (Heap.param.load
        ((Heap.param.UnmarshalJSON ⟨[[1, 2, 3, 4]]⟩
          (⟨⟨0, 0, 0⟩, Value.ValueOf (some (GoVal.bool true))⟩ : Heap.param GoVal)
          ⟨0, 1, 2⟩).1.stores [(⟨0, 1, 2⟩, 0, 9), (⟨0, 1, 2⟩, 1, 9)])
        (Heap.param.UnmarshalJSON ⟨[[1, 2, 3, 4]]⟩
          (⟨⟨0, 0, 0⟩, Value.ValueOf (some (GoVal.bool true))⟩ : Heap.param GoVal)
          ⟨0, 1, 2⟩).2.1)
      = ([116, 114, 117, 101], none) := rfl
  rw [h]
  decide

/-! ## Theorems: further properties -/

/-- C14, as stated, fails on a param that holds raw bytes and a typed value: `MarshalJSON`
returns the encoding of the typed value, here the text `true`, not the raw bytes. -/
theorem param_marshal_both_counterexample :
    param.MarshalJSON jsonMarshal ⟨[1, 2], Value.ValueOf (some (GoVal.bool true))⟩
        = ([116, 114, 117, 101], none)
    ∧ param.MarshalJSON jsonMarshal ⟨[1, 2], Value.ValueOf (some (GoVal.bool true))⟩
        ≠ ([1, 2], none) := by
  constructor
  · rfl
  · simp [param.MarshalJSON, Value.ValueOf, jsonMarshal]

/-- C14, amended: for every param state, `MarshalJSON` serializes the typed value whenever
a valid typed value is set, also when raw bytes are present on the same param, and returns
the stored raw bytes verbatim exactly when no valid typed value is set. -/
theorem param_marshal_priority {α ε : Type} (marshal : Option α → List Byte × Option ε)
    (data : List Byte) :
    (∀ i, param.MarshalJSON marshal ⟨data, Value.valid i⟩ = marshal i)
    ∧ param.MarshalJSON marshal (⟨data, Value.zero⟩ : param α) = (data, none) :=
  ⟨fun _ => rfl, rfl⟩

/-- C14 on raw bytes with a boolean set, and on the same raw bytes alone. -/
theorem param_marshal_priority_witness :
    param.MarshalJSON jsonMarshal ⟨[1, 2], Value.valid (some (GoVal.bool false))⟩
        = ([102, 97, 108, 115, 101], none)
    ∧ param.MarshalJSON jsonMarshal (⟨[1, 2], Value.zero⟩ : param GoVal) = ([1, 2], none) :=
  ⟨(param_marshal_priority jsonMarshal [1, 2]).1 (some (GoVal.bool false)),
    (param_marshal_priority jsonMarshal [1, 2]).2⟩

/-- C15: whenever `processFuncOut` returns `(valOut, errOut, n)`, `n` is the number of
outputs and is at most 2, `valOut` and `errOut` are each `-1` or in `[0, n)`, they are equal
only when both are `-1`, the number of them that differ from `-1` is `n`, and every output
position below `n` is the value of exactly one of them. -/
theorem processFuncOut_slots {τ : Type} [DecidableEq τ] (errorType : τ)
    (funcType : FuncType τ) (valOut errOut n : Int)
    (h : processFuncOut errorType funcType = .ok (valOut, errOut, n)) :
    n = funcType.NumOut ∧ n ≤ 2
    ∧ (valOut = -1 ∨ (0 ≤ valOut ∧ valOut < n))
    ∧ (errOut = -1 ∨ (0 ≤ errOut ∧ errOut < n))
    ∧ (valOut = errOut → valOut = -1 ∧ errOut = -1)
    ∧ (if valOut = -1 then 0 else 1) + (if errOut = -1 then 0 else 1) = n
    ∧ ∀ i : Int, 0 ≤ i → i < n →
        (valOut = i ∨ errOut = i) ∧ ¬ (valOut = i ∧ errOut = i) := by
  obtain ⟨out, str⟩ := funcType
  match out, h with
  | [], h =>
    simp [processFuncOut, FuncType.NumOut] at h
    obtain ⟨rfl, rfl, rfl⟩ := h
    simp [FuncType.NumOut]
  | [t0], h =>
    by_cases he : t0 = errorType
    · simp [processFuncOut, FuncType.NumOut, FuncType.Out, he] at h
      obtain ⟨rfl, rfl, rfl⟩ := h
      simp [FuncType.NumOut]
      intro i h0 h1
      omega
    · simp [processFuncOut, FuncType.NumOut, FuncType.Out, he] at h
      obtain ⟨rfl, rfl, rfl⟩ := h
      simp [FuncType.NumOut]
      intro i h0 h1
      omega
  | [t0, t1], h =>
    by_cases he : t1 = errorType
    · simp [processFuncOut, FuncType.NumOut, FuncType.Out, he] at h
      obtain ⟨rfl, rfl, rfl⟩ := h
      simp [FuncType.NumOut]
      intro i h0 h1
      omega
    · simp [processFuncOut, FuncType.NumOut, FuncType.Out, he] at h
  | t0 :: t1 :: t2 :: rest, h =>
    simp [processFuncOut, FuncType.NumOut] at h

/-- C15 at `func() (int, error)`, which returns `(0, 1, 2)`. -/
theorem processFuncOut_slots_witness :
    processFuncOut "error" ⟨["int", "error"], "func() (int, error)"⟩ = .ok (0, 1, 2)
    ∧ (2 : Int) ≤ 2
    ∧ (if (0 : Int) = -1 then 0 else 1) + (if (1 : Int) = -1 then 0 else 1) = (2 : Int) :=
  ⟨by simp [processFuncOut, FuncType.NumOut, FuncType.Out],
    (processFuncOut_slots "error" ⟨["int", "error"], "func() (int, error)"⟩ 0 1 2
      (by simp [processFuncOut, FuncType.NumOut, FuncType.Out])).2.1,
    (processFuncOut_slots "error" ⟨["int", "error"], "func() (int, error)"⟩ 0 1 2
      (by simp [processFuncOut, FuncType.NumOut, FuncType.Out])).2.2.2.2.2.1⟩

/-- C17: a param with no raw bytes whose Value is the zero Value, as in the zero param and
in one built from `reflect.ValueOf(nil)`, encodes to the empty byte sequence with no error:
not to the text `null`, which is what `json.Marshal(nil)` returns. -/
theorem param_marshal_empty {α ε : Type} (marshal : Option α → List Byte × Option ε) :
    param.MarshalJSON marshal (⟨[], Value.zero⟩ : param α) = ([], none)
    ∧ param.MarshalJSON marshal (⟨[], Value.ValueOf none⟩ : param α) = ([], none)
    ∧ (param.MarshalJSON marshal (⟨[], Value.ValueOf none⟩ : param α)).1
        ≠ [110, 117, 108, 108]
    ∧ param.MarshalJSON jsonMarshal (⟨[], Value.ValueOf none⟩ : param GoVal)
        ≠ jsonMarshal none := by
  refine ⟨rfl, rfl, ?_, ?_⟩
  · simp [param.MarshalJSON, Value.ValueOf]
  · simp [param.MarshalJSON, Value.ValueOf, jsonMarshal]

/-- Within the range of `int64`, `next` is monotone in the attempt when `math.Pow` is: for
`0 ≤ a ≤ b` at which `math.Pow` returns finite values `0 ≤ pa ≤ pb`, `0 ≤ minDelay < 2^63`
and a draw in `[0, 1)`, as long as the rounded sum at `b` is below `2^63`. -/
theorem backoff_next_mono_in_range (pow : Float64 → Float64 → Float64) (b : backoff)
    (rand : ℚ) (a c : ℤ) (pa pc : ℚ) (ha : 0 ≤ a) (hac : a ≤ c) (hmin : 0 ≤ b.minDelay)
    (hmin63 : b.minDelay < 2 ^ 63)
    (hpa : pow (Float64.finite (3 / 2)) (float64 (a : ℚ)) = Float64.finite pa)
    (hpc : pow (Float64.finite (3 / 2)) (float64 (c : ℚ)) = Float64.finite pc)
    (hpa0 : 0 ≤ pa) (hpac : pa ≤ pc) (hr0 : 0 ≤ rand) (hr1 : rand < 1)
    (hrange : rne (rne (rne b.minDelay * pc) + rne (rand * rne b.minDelay)) < 2 ^ 63) :
    b.next pow rand a ≤ b.next pow rand c := by
  have hm0 : 0 ≤ rne (b.minDelay : ℚ) := rne_nonneg (by exact_mod_cast hmin)
  have hle : rne (rne (rne (b.minDelay : ℚ) * pa) + rne (rand * rne b.minDelay))
      ≤ rne (rne (rne (b.minDelay : ℚ) * pc) + rne (rand * rne b.minDelay)) := by
    apply rne_monotone
    have := rne_monotone (mul_le_mul_of_nonneg_left hpac hm0)
    linarith
  have hfl := Int.floor_mono hle
  rw [next_eq_clamp pow b rand a pa ha hmin hmin63 hpa hpa0 hr0 hr1 (lt_of_le_of_lt hle hrange),
    next_eq_clamp pow b rand c pc (ha.trans hac) hmin hmin63 hpc (hpa0.trans hpac) hr0 hr1
      hrange]
  split_ifs <;> omega

/-- C16 fails at `minDelay = 100ms`, `maxDelay = 2s` and the draw `1/2`, for the attempts
10 and 64: `next(10)` is `2s` and `next(64)` is `-2^63`, the conversion having overflowed. -/
theorem backoff_next_not_monotone :
    (⟨100000000, 2000000000⟩ : backoff).next powCR (1 / 2) 10 = 2000000000
    ∧ (⟨100000000, 2000000000⟩ : backoff).next powCR (1 / 2) 64 = -9223372036854775808
    ∧ ¬ ((⟨100000000, 2000000000⟩ : backoff).next powCR (1 / 2) 10
          ≤ (⟨100000000, 2000000000⟩ : backoff).next powCR (1 / 2) 64) := by
  have h10 := next_powCR_ten (1 / 2) (by norm_num) (by norm_num)
  have h64 := backoff_next_overflow ⟨100000000, 2000000000⟩ (1 / 2) 64 (by norm_num)
    (by norm_num) (by norm_num) (by norm_num) (by norm_num)
  rw [h10, h64]
  norm_num

end Jsonrpc
